import Mathlib

/-!
# NitroEdit, `source/fs/fs_Fat.cpp`: shallow embedding and verified properties

The file system layer of NitroEdit wraps the C library (`stat`, `mkdir`, `remove`, `opendir`,
`readdir`, `fopen`, `fseek`, `ftell`, `fclose`) and the libfat bring-up routine `fatInitDefault`.
Every one of these is external to the repository, so the embedding takes it as an argument
acting on an explicit world state, or uses a small executable model of it where a property is
about a concrete file or directory tree.

Conventions.
* `std::string` is `Str`, a list of characters.
* `int` and `long` are 32 bits wide on the ARM9 target and `size_t` is an unsigned 32 bit
  integer; conversions between them are written out with `toInt` and `toSize`.
* A C++ reference parameter becomes an extra argument together with an extra result component.
-/

namespace fs

/-- The `std::string` type, as the list of its characters. -/
abbrev Str := List Char

/-! ## Machine integers -/

/-- Number of values of a 32 bit word (`int`, `long` and `size_t` on the target). -/
def WORD : Nat := 2 ^ 32

/-- Conversion of an unsigned 32 bit value to `int` (two's complement). -/
def toInt (n : Nat) : Int :=
  if n % WORD < 2 ^ 31 then ((n % WORD : Nat) : Int) else ((n % WORD : Nat) : Int) - (WORD : Int)

/-- Conversion of an `int` to `size_t` (reduction modulo `2 ^ 32`). -/
def toSize (i : Int) : Nat := (i % (WORD : Int)).toNat

/-- Result of `int` arithmetic: the mathematical result wrapped to 32 bits. -/
def wrapInt (i : Int) : Int := toInt (toSize i)

/-- The constant `std::string::npos`, the largest `size_t`. -/
def npos : Nat := WORD - 1

/-- The constant `LONG_MAX` of the target. -/
def LONG_MAX : Int := 2 ^ 31 - 1

/-! ## Storage initialization -/

/-- Embedding of `InitializeFat` (fs_Fat.cpp:91-102). The module variable `g_Initialized` is
passed in and returned; `fatInitDefault` is the external bring-up routine acting on the world.
The result is `(return value, g_Initialized afterwards, world afterwards)`. -/
def InitializeFat {σ : Type} (fatInitDefault : σ → Bool × σ) (g_Initialized : Bool) (w : σ) :
    Bool × Bool × σ :=
  if g_Initialized then
    (true, g_Initialized, w)
  else
    let r := fatInitDefault w
    if !r.1 then
      (false, g_Initialized, r.2)
    else
      (true, true, r.2)

/-- A bring-up routine that follows a script: the world is the number of invocations made so
far, and invocation number `i` (counted from 0) reports `outcomes i`. -/
def scriptedBringUp (outcomes : Nat → Bool) (invoked : Nat) : Bool × Nat :=
  (outcomes invoked, invoked + 1)

/-- State `(g_Initialized, number of bring-up invocations)` after `n` calls of `InitializeFat`
against the scripted bring-up, starting from the initial value `g_Initialized = false`. -/
def initStateAfter (outcomes : Nat → Bool) : Nat → Bool × Nat
  | 0 => (false, 0)
  | n + 1 =>
    let st := initStateAfter outcomes n
    (InitializeFat (scriptedBringUp outcomes) st.1 st.2).2

/-- Call number `n` (counted from 0) of a sequence of `InitializeFat` calls: the triple
`(return value, g_Initialized afterwards, invocations afterwards)`. -/
def initCall (outcomes : Nat → Bool) (n : Nat) : Bool × Bool × Nat :=
  InitializeFat (scriptedBringUp outcomes) (initStateAfter outcomes n).1
    (initStateAfter outcomes n).2

/-! ## File handles -/

/-- State of a C library stream: the bytes of the file and the cursor. -/
structure FILE where
  data : List Nat
  pos : Nat
deriving DecidableEq, Repr

/-- The `whence` constant `SEEK_SET`. -/
def SEEK_SET : Nat := 0
/-- The `whence` constant `SEEK_CUR`. -/
def SEEK_CUR : Nat := 1
/-- The `whence` constant `SEEK_END`. -/
def SEEK_END : Nat := 2

/-- Model of the C library `ftell`: the cursor, or `-1` when it does not fit in a `long`. -/
def ftell (f : FILE) : Int :=
  if (f.pos : Int) ≤ LONG_MAX then (f.pos : Int) else -1

/-- Model of the C library `fseek`: moves the cursor to `base + offset` and returns `0`, or
returns `-1` and leaves the stream alone when `whence` is unknown or the target offset is
negative or does not fit in a `long`. Seeking past the end of the file is allowed. -/
def fseek (f : FILE) (offset : Int) (whence : Nat) : Int × FILE :=
  let base : Option Int :=
    if whence = SEEK_SET then some 0
    else if whence = SEEK_CUR then some (f.pos : Int)
    else if whence = SEEK_END then some (f.data.length : Int)
    else none
  match base with
  | none => (-1, f)
  | some b =>
    if 0 ≤ b + offset ∧ b + offset ≤ LONG_MAX then (0, { f with pos := (b + offset).toNat })
    else (-1, f)

/-- The class `FatFileHandle`: its only member is the stream pointer `file`, null when closed. -/
structure FatFileHandle where
  file : Option FILE
deriving DecidableEq, Repr

/-- The enumeration `Position`. -/
inductive Position where
  | Begin
  | Current
  | End
deriving DecidableEq, Repr

/-- Embedding of `FatFileHandle::GetSize` (fs_Fat.cpp:48-54). A null stream is undefined
behaviour and gives `none`. The result is the returned `size_t` and the handle afterwards. -/
def FatFileHandle.GetSize (h : FatFileHandle) : Option (Nat × FatFileHandle) :=
  match h.file with
  | none => none
  | some f0 =>
    let cur_pos := ftell f0
    let f1 := (fseek f0 0 SEEK_END).2
    let f_size := ftell f1
    let f2 := (fseek f1 cur_pos SEEK_SET).2
    some (toSize f_size, { file := some f2 })

/-- Embedding of `FatFileHandle::SetOffset` (fs_Fat.cpp:56-71); the `size_t` offset is converted
to the `long` that `fseek` takes. -/
def FatFileHandle.SetOffset (h : FatFileHandle) (offset : Nat) (pos : Position) :
    Option (Bool × FatFileHandle) :=
  match h.file with
  | none => none
  | some f =>
    match pos with
    | Position.Begin =>
      let r := fseek f (toInt offset) SEEK_SET
      some (decide (r.1 = 0), { file := some r.2 })
    | Position.Current =>
      let r := fseek f (toInt offset) SEEK_CUR
      some (decide (r.1 = 0), { file := some r.2 })
    | Position.End =>
      let r := fseek f (toInt offset) SEEK_END
      some (decide (r.1 = 0), { file := some r.2 })

/-- Embedding of `FatFileHandle::GetOffset` (fs_Fat.cpp:73-75). -/
def FatFileHandle.GetOffset (h : FatFileHandle) : Option (Nat × FatFileHandle) :=
  match h.file with
  | none => none
  | some f => some (toSize (ftell f), h)

/-- Embedding of `FatFileHandle::Close` (fs_Fat.cpp:85-89); `fclose` is the native close call,
whose return value depends on the stream. -/
def FatFileHandle.Close (fclose : FILE → Int) (h : FatFileHandle) :
    Option (Bool × FatFileHandle) :=
  match h.file with
  | none => none
  | some f =>
    let res := fclose f
    some (decide (res = 0), { file := none })

/-! ## `stat` based queries -/

/-- The fields of `struct stat` that the code reads. -/
structure Stat where
  st_mode : Nat
  st_size : Nat
deriving DecidableEq, Repr

/-- Modelled from the spec: the file type field of the mode bits that `stat` reports (section
6), that is the mask `S_IFMT` of `<sys/stat.h>`, which the repository uses but does not define;
this value and those of the `S_IF` constants below are the ones of newlib, the C library of
the target, and of glibc. -/
def S_IFMT : Nat := 0o170000
/-- Modelled from the spec: the platform constant `S_IFREG` (regular file). -/
def S_IFREG : Nat := 0o100000
/-- Modelled from the spec: the platform constant `S_IFDIR` (directory). -/
def S_IFDIR : Nat := 0o040000
/-- Modelled from the spec: the platform constant `S_IFLNK` (symbolic link). -/
def S_IFLNK : Nat := 0o120000
/-- Modelled from the spec: the platform constant `S_IFSOCK` (socket). -/
def S_IFSOCK : Nat := 0o140000
/-- Modelled from the spec: the platform constant `S_IFBLK` (block device). -/
def S_IFBLK : Nat := 0o060000
/-- Modelled from the spec: the platform constant `S_IFCHR` (character device). -/
def S_IFCHR : Nat := 0o020000
/-- Modelled from the spec: the platform constant `S_IFIFO` (FIFO). -/
def S_IFIFO : Nat := 0o010000

/-- The file type of a mode word, as `S_ISREG` and its siblings read it. -/
def fileType (st : Stat) : Nat := st.st_mode &&& S_IFMT

/-- Embedding of `FatFileHandle::Exists` (fs_Fat.cpp:28-37). `stat` returns its `int` result
and the buffer it filled; the reference parameter `out_size` is returned next to the result. -/
def FatFileHandle.Exists (stat : Str → Int × Stat) (path : Str) (out_size : Nat) : Bool × Nat :=
  let r := stat path
  if r.1 = 0 then
    if r.2.st_mode &&& S_IFREG ≠ 0 then
      (true, r.2.st_size)
    else (false, out_size)
  else (false, out_size)

/-- Embedding of `IsFatFile` (fs_Fat.cpp:131-139). -/
def IsFatFile (stat : Str → Int × Stat) (path : Str) : Bool :=
  let r := stat path
  if r.1 = 0 then
    if r.2.st_mode &&& S_IFREG ≠ 0 then
      true
    else false
  else false

/-- Embedding of `GetFatFileSize` (fs_Fat.cpp:141-149). -/
def GetFatFileSize (stat : Str → Int × Stat) (path : Str) : Nat :=
  let r := stat path
  if r.1 = 0 then
    if r.2.st_mode &&& S_IFREG ≠ 0 then
      r.2.st_size
    else 0
  else 0

/-! ## Recursive directory creation -/

/-- Index of the first occurrence of `c` in `s`, if there is one. -/
def indexOfChar (c : Char) : Str → Option Nat
  | [] => none
  | x :: xs => if x = c then some 0 else (indexOfChar c xs).map (· + 1)

/-- Model of `std::string::find(char, pos)`: the index of the first occurrence of `c` at or
after `pos`, and `npos` when there is none (in particular when `pos` is past the end). -/
def find (s : Str) (c : Char) (pos : Nat) : Nat :=
  if pos < s.length then
    match indexOfChar c (s.drop pos) with
    | some i => pos + i
    | none => npos
  else npos

/-- Model of `std::string::substr(pos, count)`: throws `std::out_of_range` (here `none`) when
`pos` is past the end, and otherwise gives at most `count` characters from `pos` on. -/
def substr (s : Str) (pos count : Nat) : Option Str :=
  if pos > s.length then none else some ((s.drop pos).take count)

/-- What `mkdir` reports: its return value and the value of `errno` after the call. -/
structure CallResult where
  ret : Int
  errno : Int
deriving DecidableEq, Repr

/-- Modelled from the spec: the `errno` value `EEXIST` ("already exists") of `<errno.h>`, which
the source uses but does not define; 17 in newlib. -/
def EEXIST : Int := 17

/-- A call of `mkdir` that makes `CreateFatDirectory` give up: it failed, and not because the
directory already exists. -/
def CallResult.hardFailure (r : CallResult) : Prop := r.ret ≠ 0 ∧ r.errno ≠ EEXIST

instance (r : CallResult) : Decidable r.hardFailure := by
  unfold CallResult.hardFailure
  exact inferInstance

/-- Ways in which a run does not return normally. -/
inductive Fault where
  | out_of_range
  | out_of_fuel
deriving DecidableEq, Repr

/-- The `while` loop of `CreateFatDirectory` (fs_Fat.cpp:112-127). The local variables
`pos_init` and `pos_found` are `int`s and `cur_dir` the path built so far; `mkdir` is the
external primitive, which takes the path and the mode and acts on the world `w`. The first
argument bounds the number of times the loop condition is evaluated. -/
def CreateFatDirectory.loop {σ : Type} (mkdir : σ → Str → Nat → CallResult × σ) (dir : Str) :
    Nat → Int → Int → Str → σ → Except Fault (Bool × σ)
  | 0, _, _, _, _ => Except.error Fault.out_of_fuel
  | fuel + 1, pos_init, pos_found, cur_dir, w =>
    if pos_found ≥ 0 then
      let pos_found1 := toInt (find dir '/' (toSize pos_init))
      match substr dir (toSize pos_init) (toSize (wrapInt (pos_found1 - pos_init))) with
      | none => Except.error Fault.out_of_range
      | some token =>
        let pos_init1 := wrapInt (pos_found1 + 1)
        let cur_dir1 := if cur_dir ≠ [] then cur_dir ++ ['/'] else cur_dir
        let cur_dir2 := cur_dir1 ++ token
        let r := mkdir w cur_dir2 777
        if r.1.ret ≠ 0 then
          if r.1.errno ≠ EEXIST then
            Except.ok (false, r.2)
          else
            CreateFatDirectory.loop mkdir dir fuel pos_init1 pos_found1 cur_dir2 r.2
        else
          CreateFatDirectory.loop mkdir dir fuel pos_init1 pos_found1 cur_dir2 r.2
    else
      Except.ok (true, w)

/-- Embedding of `CreateFatDirectory` (fs_Fat.cpp:106-129). The loop condition is evaluated at
most once per character of `dir` plus twice, which the fuel allows for. -/
def CreateFatDirectory {σ : Type} (mkdir : σ → Str → Nat → CallResult × σ) (dir : Str) (w : σ) :
    Except Fault (Bool × σ) :=
  CreateFatDirectory.loop mkdir dir (dir.length + 2) 0 0 [] w

/-- The primitive `mkdir` with a log: the world carries the list of the calls made so far, each
with the path it was given and what it reported. -/
def logged {σ : Type} (mkdir : σ → Str → Nat → CallResult × σ) :
    σ × List (Str × CallResult) → Str → Nat → CallResult × (σ × List (Str × CallResult)) :=
  fun w path mode =>
    let r := mkdir w.1 path mode
    (r.1, (r.2, w.2 ++ [(path, r.1)]))

/-- The pieces of a string between its `/` characters. -/
def tokens : Str → List Str
  | [] => [[]]
  | c :: cs =>
    if c = '/' then [] :: tokens cs
    else (c :: (tokens cs).headD []) :: (tokens cs).tail

/-- The segments joined by single `/` characters. -/
def joinSlash : List Str → Str
  | [] => []
  | [t] => t
  | t :: u :: ts => t ++ '/' :: joinSlash (u :: ts)

/-- The cumulative paths `seg1`, `seg1/seg2`, ..., `seg1/.../segk` of a list of segments. -/
def cumulative (segs : List Str) : List Str :=
  (List.range segs.length).map (fun i => joinSlash (segs.take (i + 1)))

/-- The loop of `CreateFatDirectory` told over the tokens of the path rather than over
positions in it; `CreateFatDirectory.loop_eq` relates the two. -/
def createTokens {σ : Type} (mkdir : σ → Str → Nat → CallResult × σ) :
    List Str → Str → σ → Bool × σ
  | [], _, w => (true, w)
  | token :: rest, cur_dir, w =>
    let cur_dir2 := (if cur_dir ≠ [] then cur_dir ++ ['/'] else cur_dir) ++ token
    let r := mkdir w cur_dir2 777
    if r.1.ret ≠ 0 ∧ r.1.errno ≠ EEXIST then (false, r.2)
    else createTokens mkdir rest cur_dir2 r.2

/-- The successive values of `cur_dir` when the tokens are appended one after the other to
`cur_dir`, with the separator that the loop inserts. -/
def pathsFrom : Str → List Str → List Str
  | _, [] => []
  | cur_dir, token :: rest =>
    ((if cur_dir ≠ [] then cur_dir ++ ['/'] else cur_dir) ++ token) ::
      pathsFrom ((if cur_dir ≠ [] then cur_dir ++ ['/'] else cur_dir) ++ token) rest

/-! ## A model of the directory tree

The properties about concrete directory trees are stated over this model of the file system
behind the C library calls. A tree is the finite list of its entries, each with the list of
names leading to it from the root and the type that `readdir` reports for it. -/

/-- Modelled from the spec: the type flag of a directory entry (section 6), here the constant
`DT_UNKNOWN` of `<dirent.h>`, which the repository uses but does not define; this value and
those of the `DT` constants below are the ones of newlib, the C library of the target, of the
BSDs and of Linux. -/
def DT_UNKNOWN : Nat := 0
/-- Modelled from the spec: the platform constant `DT_FIFO`. -/
def DT_FIFO : Nat := 1
/-- Modelled from the spec: the platform constant `DT_CHR` (character device). -/
def DT_CHR : Nat := 2
/-- Modelled from the spec: the platform constant `DT_DIR` (directory). -/
def DT_DIR : Nat := 4
/-- Modelled from the spec: the platform constant `DT_BLK` (block device). -/
def DT_BLK : Nat := 6
/-- Modelled from the spec: the platform constant `DT_REG` (regular file). -/
def DT_REG : Nat := 8
/-- Modelled from the spec: the platform constant `DT_LNK` (symbolic link). -/
def DT_LNK : Nat := 10
/-- Modelled from the spec: the platform constant `DT_SOCK` (socket). -/
def DT_SOCK : Nat := 12

/-- The fields of `struct dirent` that the code reads. -/
structure Dirent where
  d_name : Str
  d_type : Nat
deriving DecidableEq, Repr

/-- An entry of a directory tree: the names leading to it from the root, and its type. -/
structure Entry where
  path : List Str
  d_type : Nat
deriving DecidableEq, Repr

/-- A directory tree, as the list of its entries. -/
abbrev FileSystem := List Entry

/-- Whether the tree has an entry at these names. -/
def FileSystem.hasEntry (fs : FileSystem) (key : List Str) : Bool :=
  fs.any (fun e => decide (e.path = key))

/-- Whether the tree has a directory at these names. -/
def FileSystem.isDirectory (fs : FileSystem) (key : List Str) : Bool :=
  fs.any (fun e => decide (e.path = key ∧ e.d_type = DT_DIR))

/-- Whether the tree has an entry at these names that is not a directory. -/
def FileSystem.isNonDirectory (fs : FileSystem) (key : List Str) : Bool :=
  fs.any (fun e => decide (e.path = key ∧ e.d_type ≠ DT_DIR))

/-- The name of `p` inside the directory `key`, when `p` is an immediate child of `key`. -/
def childName (key : List Str) (p : List Str) : Option Str :=
  if p.dropLast = key then p.getLast? else none

/-- The directory entries of the immediate children of the directory `key`, in the order of
the tree. -/
def childEntries (fs : FileSystem) (key : List Str) : List Dirent :=
  fs.filterMap (fun e =>
    (childName key e.path).map (fun n => { d_name := n, d_type := e.d_type }))

/-- Model of `opendir` followed by `readdir` until it returns null: on a directory, the
pseudo-entries `.` and `..` and then one entry per immediate child, in the order of the tree;
`none` (a null `DIR*`) on anything else. The path is resolved by its `/` separated names. -/
def opendirFS (fs : FileSystem) (path : Str) : Option (List Dirent) :=
  if fs.isDirectory (tokens path) then
    some ({ d_name := ['.'], d_type := DT_DIR } :: { d_name := ['.', '.'], d_type := DT_DIR } ::
      childEntries fs (tokens path))
  else none

/-- Modelled from the spec: the `errno` value `ENOENT` of `<errno.h>`; 2 in newlib. -/
def ENOENT : Int := 2

/-- Model of `mkdir`, as the specification describes the primitive: it reports `EEXIST` when
the name is taken, succeeds and adds a directory when the name is free and the parent is the
root or a directory, and fails with `ENOENT` otherwise. -/
def mkdirFS (fs : FileSystem) (path : Str) (_mode : Nat) : CallResult × FileSystem :=
  if fs.hasEntry (tokens path) then ({ ret := -1, errno := EEXIST }, fs)
  else if (tokens path).dropLast = [] ∨ fs.isDirectory (tokens path).dropLast = true then
    ({ ret := 0, errno := 0 }, fs ++ [{ path := tokens path, d_type := DT_DIR }])
  else ({ ret := -1, errno := ENOENT }, fs)

/-- Model of `remove` on a file: it takes an entry that is not a directory out of the tree and
returns `0`, and returns `-1` without effect when there is no such entry. -/
def removeFS (fs : FileSystem) (path : Str) : Int × FileSystem :=
  if fs.isNonDirectory (tokens path) then
    (0, fs.filter (fun e => decide (e.path ≠ tokens path)))
  else (-1, fs)

/-- The tree made of the nested directories `seg1`, `seg1/seg2`, ..., and nothing else. -/
def dirChain (segs : List Str) : FileSystem :=
  (List.range segs.length).map (fun i => { path := segs.take (i + 1), d_type := DT_DIR })

/-- A `mkdir` that reports the same result for every path and has no effect. -/
def mkdirConst (r : CallResult) : Unit → Str → Nat → CallResult × Unit :=
  fun _ _ _ => (r, ())

/-! ## Recursive listing and deletion -/

/-- The `readdir` loop of `ListAllFatFiles` (fs_Fat.cpp:201-219), over the entries that
`readdir` hands out before it returns null; it fills `subdirs` and `out_files`. -/
def ListAllFatFiles.readLoop (path : Str) :
    List Dirent → List Str → List Str → List Str × List Str
  | [], subdirs, out_files => (subdirs, out_files)
  | ent :: more, subdirs, out_files =>
    if ent.d_name = ['.'] then
      ListAllFatFiles.readLoop path more subdirs out_files
    else if ent.d_name = ['.', '.'] then
      ListAllFatFiles.readLoop path more subdirs out_files
    else
      let subpath := path ++ ['/'] ++ ent.d_name
      if ent.d_type &&& DT_DIR ≠ 0 then
        ListAllFatFiles.readLoop path more (subdirs ++ [subpath]) out_files
      else if ent.d_type &&& DT_REG ≠ 0 then
        ListAllFatFiles.readLoop path more subdirs (out_files ++ [subpath])
      else
        ListAllFatFiles.readLoop path more subdirs out_files

/-- The `for` loop of `ListAllFatFiles` over `subdirs` (fs_Fat.cpp:221-225); `recurse` stands
for the recursive call, which gives `none` when it does not return. -/
def ListAllFatFiles.forSubdirs (recurse : Str → List Str → Option (Bool × List Str)) :
    List Str → List Str → Option (Bool × List Str)
  | [], out_files => some (true, out_files)
  | subdir :: more, out_files =>
    match recurse subdir out_files with
    | none => none
    | some r =>
      if !r.1 then some (false, r.2)
      else ListAllFatFiles.forSubdirs recurse more r.2

/-- Embedding of `ListAllFatFiles` (fs_Fat.cpp:197-228). `opendir` gives the entries of a
directory stream, or `none` for a null `DIR*`; the reference parameter `out_files` is passed in
and returned. The first argument bounds the depth of the recursion, and the result is `none`
when that bound is reached. -/
def ListAllFatFiles (opendir : Str → Option (List Dirent)) :
    Nat → Str → List Str → Option (Bool × List Str)
  | 0, _, _ => none
  | fuel + 1, path, out_files =>
    match opendir path with
    | some entries =>
      let r := ListAllFatFiles.readLoop path entries [] out_files
      ListAllFatFiles.forSubdirs (ListAllFatFiles opendir fuel) r.1 r.2
    | none => some (true, out_files)

/-- Embedding of `DeleteFatFile` (fs_Fat.cpp:151-153); `remove` acts on the world. -/
def DeleteFatFile {σ : Type} (remove : σ → Str → Int × σ) (path : Str) (w : σ) : Bool × σ :=
  let r := remove w path
  (decide (r.1 = 0), r.2)

/-- The `readdir` loop of `DeleteFatDirectory` (fs_Fat.cpp:160-178); it fills `subfiles` and
`subdirs`, returned in this order. -/
def DeleteFatDirectory.readLoop (path : Str) :
    List Dirent → List Str → List Str → List Str × List Str
  | [], subfiles, subdirs => (subfiles, subdirs)
  | ent :: more, subfiles, subdirs =>
    if ent.d_name = ['.'] then
      DeleteFatDirectory.readLoop path more subfiles subdirs
    else if ent.d_name = ['.', '.'] then
      DeleteFatDirectory.readLoop path more subfiles subdirs
    else
      let subpath := path ++ ['/'] ++ ent.d_name
      if ent.d_type &&& DT_DIR ≠ 0 then
        DeleteFatDirectory.readLoop path more subfiles (subdirs ++ [subpath])
      else if ent.d_type &&& DT_REG ≠ 0 then
        DeleteFatDirectory.readLoop path more (subfiles ++ [subpath]) subdirs
      else
        DeleteFatDirectory.readLoop path more subfiles subdirs

/-- The `for` loop of `DeleteFatDirectory` over `subfiles` (fs_Fat.cpp:180-184). -/
def DeleteFatDirectory.forSubfiles {σ : Type} (remove : σ → Str → Int × σ) :
    List Str → σ → Bool × σ
  | [], w => (true, w)
  | subfile :: more, w =>
    let r := DeleteFatFile remove subfile w
    if !r.1 then (false, r.2)
    else DeleteFatDirectory.forSubfiles remove more r.2

/-- The `for` loop of `DeleteFatDirectory` over `subdirs` (fs_Fat.cpp:185-189); `recurse`
stands for the recursive call. -/
def DeleteFatDirectory.forSubdirs {σ : Type} (recurse : Str → σ → Option (Bool × σ)) :
    List Str → σ → Option (Bool × σ)
  | [], w => some (true, w)
  | subdir :: more, w =>
    match recurse subdir w with
    | none => none
    | some r =>
      if !r.1 then some (false, r.2)
      else DeleteFatDirectory.forSubdirs recurse more r.2

/-- Embedding of `DeleteFatDirectory` (fs_Fat.cpp:155-195). `opendir` reads the world and
`remove` changes it. The first argument bounds the depth of the recursion, and the result is
`none` when that bound is reached. The directory itself is not removed (the `rmdir` call is
commented out in the source). -/
def DeleteFatDirectory {σ : Type} (opendir : σ → Str → Option (List Dirent))
    (remove : σ → Str → Int × σ) : Nat → Str → σ → Option (Bool × σ)
  | 0, _, _ => none
  | fuel + 1, path, w =>
    match opendir w path with
    | some entries =>
      let l := DeleteFatDirectory.readLoop path entries [] []
      let r := DeleteFatDirectory.forSubfiles remove l.1 w
      if !r.1 then some (false, r.2)
      else DeleteFatDirectory.forSubdirs (DeleteFatDirectory opendir remove fuel) l.2 r.2
    | none => some (true, w)

/-- An entry that the walks take for a directory: its type has a bit of `DT_DIR`. -/
def treatedAsDir (d_type : Nat) : Bool := d_type &&& DT_DIR != 0

/-- An entry that the walks take for a file: its type has no bit of `DT_DIR` and has a bit of
`DT_REG`. -/
def treatedAsFile (d_type : Nat) : Bool := d_type &&& DT_DIR == 0 && d_type &&& DT_REG != 0

/-- The length of the longest path of names in the tree. -/
def FileSystem.depth (fs : FileSystem) : Nat :=
  (fs.map (fun e => e.path.length)).foldr max 0

/-- A well formed directory tree: no two entries at the same place; every name is non-empty,
has no `/` in it and is neither `.` nor `..`; and every entry below the top level lies in an
entry that is a directory. -/
def FileSystem.WellFormed (fs : FileSystem) : Prop :=
  (fs.map Entry.path).Nodup ∧
  (∀ e ∈ fs, e.path ≠ [] ∧ ∀ n ∈ e.path, n ≠ [] ∧ '/' ∉ n ∧ n ≠ ['.'] ∧ n ≠ ['.', '.']) ∧
  (∀ e ∈ fs, e.path.dropLast = [] ∨ fs.isDirectory e.path.dropLast = true)

instance (fs : FileSystem) : Decidable fs.WellFormed := by
  unfold FileSystem.WellFormed
  exact inferInstance

/-- The tree of the specification's example: the directories `a` and `a/b`, and the regular
files `a/x.txt` and `a/b/y.txt`. -/
def exampleTree : FileSystem :=
  [{ path := ["a".toList], d_type := DT_DIR },
   { path := ["a".toList, "x.txt".toList], d_type := DT_REG },
   { path := ["a".toList, "b".toList], d_type := DT_DIR },
   { path := ["a".toList, "b".toList, "y.txt".toList], d_type := DT_REG }]

/-- A tree with a symbolic link next to a regular file: the directory `a`, the file `a/f`
and the link `a/l`. -/
def linkTree : FileSystem :=
  [{ path := [['a']], d_type := DT_DIR },
   { path := [['a'], ['f']], d_type := DT_REG },
   { path := [['a'], ['l']], d_type := DT_LNK }]

/-- The paths that a `readdir` loop puts in `subdirs`: those of the entries other than `.`
and `..` that it takes for directories. -/
def subdirPaths (path : Str) (entries : List Dirent) : List Str :=
  (entries.filter (fun ent => decide (ent.d_name ≠ ['.']) && decide (ent.d_name ≠ ['.', '.'])
    && treatedAsDir ent.d_type)).map (fun ent => path ++ ['/'] ++ ent.d_name)

/-- The paths that a `readdir` loop puts in `out_files` or `subfiles`: those of the entries
other than `.` and `..` that it takes for files. -/
def subfilePaths (path : Str) (entries : List Dirent) : List Str :=
  (entries.filter (fun ent => decide (ent.d_name ≠ ['.']) && decide (ent.d_name ≠ ['.', '.'])
    && treatedAsFile ent.d_type)).map (fun ent => path ++ ['/'] ++ ent.d_name)

/-- What a call of `ListAllFatFiles` adds to an empty `out_files` (nothing when it does not
return). -/
def listedBy (opendir : Str → Option (List Dirent)) (fuel : Nat) (path : Str) : List Str :=
  match ListAllFatFiles opendir fuel path [] with
  | some r => r.2
  | none => []

/-- Whether the names `p` lead to a place below the directory `key`, at any depth. -/
def liesBelow (key p : List Str) : Bool :=
  decide (key.length < p.length ∧ p.take key.length = key)

/-- Whether the entry is a regular file below the directory `key`, at any depth. -/
def regularBelow (key : List Str) (e : Entry) : Bool :=
  decide (e.d_type = DT_REG) && liesBelow key e.path

/-! # Theorems -/

/-! ## Machine integers -/

theorem toSize_ofNat (n : Nat) (h : n < 2 ^ 32) : toSize (n : Int) = n := by
  unfold toSize WORD
  have h1 : ((n : Int) % ((2 ^ 32 : Nat) : Int)) = (n : Int) :=
    Int.emod_eq_of_lt (Int.ofNat_nonneg n) (by exact_mod_cast h)
  rw [h1]
  exact Int.toNat_natCast n

theorem toInt_of_lt (n : Nat) (h : n < 2 ^ 31) : toInt n = (n : Int) := by
  unfold toInt WORD
  have h1 : n % 2 ^ 32 = n := Nat.mod_eq_of_lt (by omega)
  rw [h1, if_pos h]

/-! ## Storage initialization -/

/-- Invariant of a sequence of `InitializeFat` calls: while the flag is unset every call so far
invoked bring-up and failed; once it is set some earlier bring-up succeeded. -/
theorem initStateAfter_inv (outcomes : Nat → Bool) (n : Nat) :
    ((initStateAfter outcomes n).1 = false →
      (initStateAfter outcomes n).2 = n ∧ ∀ i, i < n → outcomes i = false) ∧
    ((initStateAfter outcomes n).1 = true → ∃ i, i < n ∧ outcomes i = true) := by
  induction n with
  | zero => simp [initStateAfter]
  | succ n ih =>
    obtain ⟨ih1, ih2⟩ := ih
    cases hg : (initStateAfter outcomes n).1 with
    | true =>
      obtain ⟨i, hi, hio⟩ := ih2 hg
      have hs : (initStateAfter outcomes (n + 1)).1 = true := by
        simp [initStateAfter, InitializeFat, hg]
      refine ⟨fun h => ?_, fun _ => ⟨i, by omega, hio⟩⟩
      rw [hs] at h
      simp at h
    | false =>
      obtain ⟨hw, hall⟩ := ih1 hg
      cases ho : outcomes n with
      | true =>
        have hs : (initStateAfter outcomes (n + 1)).1 = true := by
          simp [initStateAfter, InitializeFat, hg, scriptedBringUp, hw, ho]
        refine ⟨fun h => ?_, fun _ => ⟨n, by omega, ho⟩⟩
        rw [hs] at h
        simp at h
      | false =>
        have hs : initStateAfter outcomes (n + 1) = (false, n + 1) := by
          simp [initStateAfter, InitializeFat, hg, scriptedBringUp, hw, ho]
        refine ⟨fun _ => ⟨by rw [hs], fun i hi => ?_⟩, fun h => ?_⟩
        · rcases Nat.lt_succ_iff_lt_or_eq.mp hi with h1 | h1
          · exact hall i h1
          · rw [h1]; exact ho
        · rw [hs] at h
          simp at h

/-- C6. In a sequence of `InitializeFat` calls against any script of bring-up outcomes, call
number `n` invokes bring-up exactly when no earlier bring-up succeeded (the invocation count
grows by one, and stays the same otherwise); a call that invokes bring-up makes invocation
number `n`, returns its outcome and leaves the flag equal to that outcome, so that after a
failure the flag is unset and the next call invokes bring-up again; once a bring-up has
succeeded the flag is set and every call returns true without invoking bring-up. -/
theorem InitializeFat_sequence (outcomes : Nat → Bool) (n : Nat) :
    (((initCall outcomes n).2.2 = (initStateAfter outcomes n).2 + 1 ↔
        ∀ i, i < n → outcomes i = false) ∧
      ((initCall outcomes n).2.2 = (initStateAfter outcomes n).2 ↔
        ∃ i, i < n ∧ outcomes i = true)) ∧
    ((∀ i, i < n → outcomes i = false) →
      (initStateAfter outcomes n) = (false, n) ∧
      (initCall outcomes n).1 = outcomes n ∧
      (initCall outcomes n).2.1 = outcomes n ∧
      (outcomes n = false →
        (initCall outcomes (n + 1)).2.2 = (initCall outcomes n).2.2 + 1)) ∧
    ((∃ i, i < n ∧ outcomes i = true) →
      (initStateAfter outcomes n).1 = true ∧
      (initCall outcomes n).1 = true ∧
      (initCall outcomes n).2.1 = true) := by
  obtain ⟨inv1, inv2⟩ := initStateAfter_inv outcomes n
  cases hg : (initStateAfter outcomes n).1 with
  | true =>
    obtain ⟨i, hi, hio⟩ := inv2 hg
    have hnot : ¬ ∀ i, i < n → outcomes i = false := fun h => by
      have := h i hi
      rw [hio] at this
      simp at this
    have hc : initCall outcomes n = (true, true, (initStateAfter outcomes n).2) := by
      simp [initCall, InitializeFat, hg]
    refine ⟨⟨⟨fun h => ?_, fun h => absurd h hnot⟩, ⟨fun _ => ⟨i, hi, hio⟩, fun _ => ?_⟩⟩,
      fun h => absurd h hnot, fun _ => ⟨rfl, ?_, ?_⟩⟩
    · rw [hc] at h
      simp at h
    · rw [hc]
    · rw [hc]
    · rw [hc]
  | false =>
    obtain ⟨hw, hall⟩ := inv1 hg
    have hnot : ¬ ∃ i, i < n ∧ outcomes i = true := fun ⟨i, hi, hio⟩ => by
      have := hall i hi
      rw [hio] at this
      simp at this
    have hst : initStateAfter outcomes n = (false, n) := Prod.ext hg hw
    have hc : initCall outcomes n = (outcomes n, outcomes n, n + 1) := by
      cases ho : outcomes n <;> simp [initCall, InitializeFat, hst, scriptedBringUp, ho]
    refine ⟨⟨⟨fun _ => hall, fun _ => ?_⟩, ⟨fun h => ?_, fun h => absurd h hnot⟩⟩,
      fun _ => ⟨hst, ?_, ?_, fun ho => ?_⟩, fun h => absurd h hnot⟩
    · rw [hc, hw]
    · rw [hc, hw] at h
      simp at h
    · rw [hc]
    · rw [hc]
    · have hst1 : initStateAfter outcomes (n + 1) = (false, n + 1) := by
        simp [initStateAfter, InitializeFat, hst, scriptedBringUp, ho]
      rw [hc]
      simp [initCall, InitializeFat, hst1, scriptedBringUp]
      cases outcomes (n + 1) <;> simp

/-! ## File handles -/

/-- C8. On a handle holding an open stream, for any behaviour of the native close call,
`Close` leaves the stored reference null and returns true exactly when the native call
returned `0`. -/
theorem FatFileHandle.Close_nulls_reference (fclose : FILE → Int) (f : FILE) :
    ∃ res h, FatFileHandle.Close fclose { file := some f } = some (res, h) ∧
      h.file = none ∧ (res = true ↔ fclose f = 0) := by
  refine ⟨decide (fclose f = 0), { file := none }, rfl, rfl, ?_⟩
  simp

/-- C5. On an open handle whose file length and cursor both fit in a `long` (so that the
native seeks and tells succeed), `GetSize` returns the file length and leaves the handle as it
was, and `GetOffset` called on the resulting handle returns the cursor from before. -/
theorem FatFileHandle.GetSize_keeps_cursor (f : FILE)
    (hn : (f.data.length : Int) ≤ LONG_MAX) (hp : (f.pos : Int) ≤ LONG_MAX) :
    ∃ h, FatFileHandle.GetSize { file := some f } = some (f.data.length, h) ∧
      FatFileHandle.GetOffset h = some (f.pos, h) ∧ h = { file := some f } := by
  have hn2 : f.data.length < 2 ^ 32 := by
    unfold LONG_MAX at hn
    omega
  have hp2 : f.pos < 2 ^ 32 := by
    unfold LONG_MAX at hp
    omega
  refine ⟨{ file := some f }, ?_, ?_, rfl⟩
  · simp only [FatFileHandle.GetSize, ftell, fseek, SEEK_END, SEEK_SET, SEEK_CUR, if_pos hp]
    simp [hn, hp, toSize_ofNat _ hn2]
  · simp only [FatFileHandle.GetOffset, ftell, if_pos hp, toSize_ofNat _ hp2]

/-- Witness for C5: a 10 byte file with the cursor at offset 4. -/
theorem FatFileHandle.GetSize_keeps_cursor_witness :
    ∃ h, FatFileHandle.GetSize { file := some ⟨List.replicate 10 65, 4⟩ } =
        some ((⟨List.replicate 10 65, 4⟩ : FILE).data.length, h) ∧
      FatFileHandle.GetOffset h = some ((⟨List.replicate 10 65, 4⟩ : FILE).pos, h) ∧
      h = { file := some ⟨List.replicate 10 65, 4⟩ } :=
  FatFileHandle.GetSize_keeps_cursor ⟨List.replicate 10 65, 4⟩ (by decide) (by decide)

/-- The scenario of the specification: on a 10 byte file, `SetOffset(4, Begin)` succeeds,
`GetSize` then gives 10 and `GetOffset` gives 4. -/
theorem FatFileHandle.GetSize_scenario :
    ∃ h1 h2, FatFileHandle.SetOffset { file := some ⟨List.replicate 10 65, 0⟩ } 4 Position.Begin
        = some (true, h1) ∧
      FatFileHandle.GetSize h1 = some (10, h2) ∧
      FatFileHandle.GetOffset h2 = some (4, h2) := by
  refine ⟨{ file := some ⟨List.replicate 10 65, 4⟩ }, { file := some ⟨List.replicate 10 65, 4⟩ },
    ?_, ?_, ?_⟩ <;> decide

/-! ## Recursive directory creation -/

theorem toInt_npos : toInt npos = -1 := by decide

theorem toSize_eq (i : Int) : toSize i = (i % 4294967296).toNat := by
  unfold toSize WORD
  norm_num

theorem toInt_eq (n : Nat) :
    toInt n = if n % 4294967296 < 2147483648 then ((n % 4294967296 : Nat) : Int)
      else ((n % 4294967296 : Nat) : Int) - 4294967296 := by
  unfold toInt WORD
  norm_num

theorem toSize_of_nonneg (i : Int) (h1 : 0 ≤ i) (h2 : i < 2 ^ 31) : toSize i = i.toNat := by
  rw [toSize_eq]
  omega

theorem toSize_of_neg (i : Int) (h1 : -(2 ^ 31) ≤ i) (h2 : i < 0) :
    toSize i = (i + 4294967296).toNat := by
  rw [toSize_eq]
  omega

theorem wrapInt_of_range (i : Int) (h1 : -(2 ^ 31) ≤ i) (h2 : i < 2 ^ 31) : wrapInt i = i := by
  unfold wrapInt
  rw [toInt_eq, toSize_eq]
  split <;> omega

theorem indexOfChar_none (c : Char) (s : Str) (h : indexOfChar c s = none) : c ∉ s := by
  induction s with
  | nil => simp
  | cons x xs ih =>
    unfold indexOfChar at h
    by_cases hx : x = c
    · simp [hx] at h
    · simp only [if_neg hx, Option.map_eq_none'] at h
      simp only [List.mem_cons, not_or]
      exact ⟨fun e => hx e.symm, ih h⟩

theorem indexOfChar_some (c : Char) (s : Str) (i : Nat) (h : indexOfChar c s = some i) :
    ∃ t rest, s = t ++ c :: rest ∧ t.length = i ∧ c ∉ t := by
  induction s generalizing i with
  | nil => simp [indexOfChar] at h
  | cons x xs ih =>
    unfold indexOfChar at h
    by_cases hx : x = c
    · simp only [if_pos hx, Option.some.injEq] at h
      exact ⟨[], xs, by simp [hx], by simp [h], by simp⟩
    · simp only [if_neg hx, Option.map_eq_some'] at h
      obtain ⟨j, hj, hji⟩ := h
      obtain ⟨t, rest, hs, hl, hnot⟩ := ih j hj
      refine ⟨x :: t, rest, by simp [hs], by simp [hl, hji], ?_⟩
      simp only [List.mem_cons, not_or]
      exact ⟨fun e => hx e.symm, hnot⟩

theorem tokens_ne_nil (s : Str) : tokens s ≠ [] := by
  cases s with
  | nil => simp [tokens]
  | cons c cs =>
    unfold tokens
    split <;> simp

theorem tokens_no_slash (t : Str) (h : '/' ∉ t) : tokens t = [t] := by
  induction t with
  | nil => rfl
  | cons c cs ih =>
    simp only [List.mem_cons, not_or] at h
    unfold tokens
    rw [if_neg (fun e => h.1 e.symm), ih h.2]
    rfl

theorem tokens_append_slash (t rest : Str) (h : '/' ∉ t) :
    tokens (t ++ '/' :: rest) = t :: tokens rest := by
  induction t with
  | nil => simp [tokens]
  | cons c cs ih =>
    simp only [List.mem_cons, not_or] at h
    rw [List.cons_append, tokens, if_neg (fun e => h.1 e.symm), ih h.2]
    rfl

theorem find_no_slash (pre rest : Str) (h : '/' ∉ rest) :
    find (pre ++ rest) '/' pre.length = npos := by
  unfold find
  split
  · rw [List.drop_left]
    cases hi : indexOfChar '/' rest with
    | none => rfl
    | some i =>
      obtain ⟨t, r, hs, -, -⟩ := indexOfChar_some _ _ _ hi
      exact absurd (by simp [hs]) h
  · rfl

theorem find_slash (pre t rest : Str) (h : '/' ∉ t) :
    find (pre ++ (t ++ '/' :: rest)) '/' pre.length = pre.length + t.length := by
  unfold find
  rw [if_pos (by simp), List.drop_left]
  cases hi : indexOfChar '/' (t ++ '/' :: rest) with
  | none => exact absurd (by simp) (indexOfChar_none _ _ hi)
  | some i =>
    obtain ⟨t2, r2, hs, hl, hnot⟩ := indexOfChar_some _ _ _ hi
    have : t2 = t := by
      have := List.append_eq_append_iff.mp hs
      rcases this with ⟨a, h1, h2⟩ | ⟨a, h1, h2⟩
      · cases a with
        | nil => rw [List.append_nil] at h1; exact h1
        | cons x xs =>
          simp only [List.cons_append, List.cons.injEq] at h2
          exact absurd (by rw [h1, ← h2.1]; simp) hnot
      · cases a with
        | nil => rw [List.append_nil] at h1; exact h1.symm
        | cons x xs =>
          simp only [List.cons_append, List.cons.injEq] at h2
          exact absurd (by rw [h1, ← h2.1]; simp) h
    simp only [← hl, this]

theorem substr_at (pre rest : Str) (count : Nat) :
    substr (pre ++ rest) pre.length count = some (rest.take count) := by
  unfold substr
  rw [if_neg (by simp), List.drop_left]

theorem nested_test {α : Type} (r : CallResult) (a b : α) :
    (if r.ret ≠ 0 then (if r.errno ≠ EEXIST then a else b) else b) =
      if r.ret ≠ 0 ∧ r.errno ≠ EEXIST then a else b := by
  by_cases h1 : r.ret ≠ 0 <;> by_cases h2 : r.errno ≠ EEXIST <;> simp [h1, h2]

theorem CreateFatDirectory.loop_eq {σ : Type} (mkdir : σ → Str → Nat → CallResult × σ)
    (dir : Str) (hlen : dir.length < 2 ^ 31) :
    ∀ (fuel : Nat) (pre rest : Str) (pos_found : Int) (cur_dir : Str) (w : σ),
      dir = pre ++ rest → 0 ≤ pos_found → rest.length + 2 ≤ fuel →
      CreateFatDirectory.loop mkdir dir fuel (pre.length : Int) pos_found cur_dir w =
        Except.ok (createTokens mkdir (tokens rest) cur_dir w) := by
  intro fuel
  induction fuel with
  | zero => intro pre rest pos_found cur_dir w _ _ h; omega
  | succ fuel ih =>
    intro pre rest pos_found cur_dir w hdir hpf hfuel
    have hl : pre.length + rest.length < 2 ^ 31 := by
      rw [hdir, List.length_append] at hlen
      exact hlen
    have hsz : toSize (pre.length : Int) = pre.length := by
      rw [toSize_of_nonneg _ (by omega) (by omega), Int.toNat_natCast]
    rw [CreateFatDirectory.loop, if_pos hpf]
    simp only [hsz]
    by_cases hs : '/' ∈ rest
    · obtain ⟨t, rest2, hrest, hnot⟩ : ∃ t rest2, rest = t ++ '/' :: rest2 ∧ '/' ∉ t := by
        cases hi : indexOfChar '/' rest with
        | none => exact absurd hs (indexOfChar_none _ _ hi)
        | some i =>
          obtain ⟨t, r, h1, -, h3⟩ := indexOfChar_some _ _ _ hi
          exact ⟨t, r, h1, h3⟩
      have hl2 : pre.length + (t.length + (rest2.length + 1)) < 2 ^ 31 := by
        rw [hrest] at hl
        simpa using hl
      have hfind : find dir '/' pre.length = pre.length + t.length := by
        rw [hdir, hrest]; exact find_slash pre t rest2 hnot
      have hti : toInt (pre.length + t.length) = ((pre.length + t.length : Nat) : Int) :=
        toInt_of_lt _ (by omega)
      have hcnt : toSize (wrapInt (((pre.length + t.length : Nat) : Int) - (pre.length : Int)))
          = t.length := by
        rw [wrapInt_of_range _ (by omega) (by omega), toSize_of_nonneg _ (by omega) (by omega)]
        omega
      have hnext : wrapInt (((pre.length + t.length : Nat) : Int) + 1)
          = (((pre ++ (t ++ ['/'])).length : Nat) : Int) := by
        rw [wrapInt_of_range _ (by omega) (by omega)]
        simp only [List.length_append, List.length_singleton]
        omega
      have hsub : substr dir pre.length t.length = some t := by
        rw [hdir, substr_at, hrest, List.take_left]
      rw [hfind, hti, hcnt, hsub, hrest, tokens_append_slash t rest2 hnot, hnext]
      simp only [createTokens]
      generalize mkdir w ((if cur_dir ≠ [] then cur_dir ++ ['/'] else cur_dir) ++ t) 777 = r
      rw [nested_test]
      by_cases hh : r.1.ret ≠ 0 ∧ r.1.errno ≠ EEXIST
      · rw [if_pos hh, if_pos hh]
      · rw [if_neg hh, if_neg hh]
        apply ih
        · rw [hdir, hrest]; simp
        · omega
        · rw [hrest] at hfuel
          simp only [List.length_append, List.length_cons] at hfuel
          omega
    · have hfind : find dir '/' pre.length = npos := by
        rw [hdir]; exact find_no_slash pre rest hs
      have hcnt : rest.length ≤ toSize (wrapInt (-1 - (pre.length : Int))) := by
        rw [wrapInt_of_range _ (by omega) (by omega), toSize_of_neg _ (by omega) (by omega)]
        omega
      rw [hfind, toInt_npos]
      have hsub : substr dir pre.length (toSize (wrapInt (-1 - (pre.length : Int)))) = some rest := by
        rw [hdir, substr_at, List.take_of_length_le hcnt]
      rw [hsub, tokens_no_slash rest hs]
      simp only [createTokens]
      generalize mkdir w ((if cur_dir ≠ [] then cur_dir ++ ['/'] else cur_dir) ++ rest) 777 = r
      rw [nested_test]
      by_cases hh : r.1.ret ≠ 0 ∧ r.1.errno ≠ EEXIST
      · rw [if_pos hh, if_pos hh]
      · rw [if_neg hh, if_neg hh]
        obtain ⟨f2, rfl⟩ : ∃ f2, fuel = f2 + 1 := ⟨fuel - 1, by omega⟩
        rw [CreateFatDirectory.loop, if_neg (by decide)]

/-- Under the length bound of the target, where every index of the string fits in an `int`,
`CreateFatDirectory` returns, and what it returns is the run over the tokens of the path. -/
theorem CreateFatDirectory_eq {σ : Type} (mkdir : σ → Str → Nat → CallResult × σ)
    (dir : Str) (hlen : dir.length < 2 ^ 31) (w : σ) :
    CreateFatDirectory mkdir dir w = Except.ok (createTokens mkdir (tokens dir) [] w) := by
  unfold CreateFatDirectory
  exact CreateFatDirectory.loop_eq mkdir dir hlen (dir.length + 2) [] dir 0 [] w rfl
    (le_refl _) (le_refl _)

theorem tokens_joinSlash (segs : List Str) (hne : segs ≠ []) (hseg : ∀ t ∈ segs, '/' ∉ t) :
    tokens (joinSlash segs) = segs := by
  induction segs with
  | nil => exact absurd rfl hne
  | cons t ts ih =>
    cases ts with
    | nil => exact tokens_no_slash t (hseg t (by simp))
    | cons u us =>
      rw [joinSlash, tokens_append_slash _ _ (hseg t (by simp)),
        ih (by simp) (fun x hx => hseg x (List.mem_cons_of_mem _ hx))]

theorem cumulative_cons (t : Str) (ts : List Str) :
    cumulative (t :: ts) = t :: (cumulative ts).map (fun p => t ++ '/' :: p) := by
  unfold cumulative
  rw [List.length_cons, List.range_succ_eq_map, List.map_cons, List.map_map, List.map_map]
  refine congrArg₂ _ rfl (List.map_congr_left fun i hi => ?_)
  have hi2 : i < ts.length := List.mem_range.mp hi
  simp only [Function.comp, List.take_succ_cons]
  cases ts with
  | nil => simp at hi2
  | cons u us => rfl

theorem pathsFrom_of_ne_nil (cur_dir : Str) (h : cur_dir ≠ []) (ts : List Str) :
    pathsFrom cur_dir ts = (cumulative ts).map (fun p => cur_dir ++ '/' :: p) := by
  induction ts generalizing cur_dir with
  | nil => rfl
  | cons t rest ih =>
    rw [pathsFrom, if_pos h, ih _ (by simp), cumulative_cons, List.map_cons, List.map_map]
    simp [Function.comp]

theorem pathsFrom_nil (segs : List Str) (h : ∀ t ∈ segs, t ≠ []) :
    pathsFrom [] segs = cumulative segs := by
  cases segs with
  | nil => rfl
  | cons t rest =>
    rw [pathsFrom, if_neg (by simp), List.nil_append,
      pathsFrom_of_ne_nil _ (h t (by simp)), cumulative_cons]

/-- The run over tokens against the logging primitive: the world evolves as without the log,
the log grows by the calls made, which go to the successive values of `cur_dir` in order, only
the last of them can be a hard failure, and the result is true exactly when none is. -/
theorem createTokens_logged {σ : Type} (mkdir : σ → Str → Nat → CallResult × σ) :
    ∀ (ts : List Str) (cur_dir : Str) (w : σ) (log0 : List (Str × CallResult)),
      ∃ calls : List (Str × CallResult),
        createTokens (logged mkdir) ts cur_dir (w, log0) =
          ((createTokens mkdir ts cur_dir w).1, ((createTokens mkdir ts cur_dir w).2,
            log0 ++ calls)) ∧
        calls.map Prod.fst = (pathsFrom cur_dir ts).take calls.length ∧
        (∀ c ∈ calls.dropLast, ¬ c.2.hardFailure) ∧
        ((createTokens mkdir ts cur_dir w).1 = true ↔ ∀ c ∈ calls, ¬ c.2.hardFailure) ∧
        ((createTokens mkdir ts cur_dir w).1 = true → calls.length = ts.length) ∧
        (ts ≠ [] → calls ≠ []) := by
  intro ts
  induction ts with
  | nil =>
    intro cur_dir w log0
    exact ⟨[], by simp [createTokens], by simp, by simp, by simp [createTokens], by simp,
      by simp⟩
  | cons t rest ih =>
    intro cur_dir w log0
    simp only [createTokens, pathsFrom]
    generalize (if cur_dir ≠ [] then cur_dir ++ ['/'] else cur_dir) ++ t = c2
    have hlog : logged mkdir (w, log0) c2 777 =
        ((mkdir w c2 777).1, ((mkdir w c2 777).2, log0 ++ [(c2, (mkdir w c2 777).1)])) := rfl
    simp only [hlog]
    by_cases hh : (mkdir w c2 777).1.ret ≠ 0 ∧ (mkdir w c2 777).1.errno ≠ EEXIST
    · refine ⟨[(c2, (mkdir w c2 777).1)], ?_, ?_, ?_, ?_, ?_, ?_⟩
      · rw [if_pos hh, if_pos hh]
      · simp
      · simp
      · rw [if_pos hh]
        simp [CallResult.hardFailure, hh]
      · rw [if_pos hh]
        simp
      · simp
    · obtain ⟨calls, h1, h2, h3, h4, h5, -⟩ :=
        ih c2 (mkdir w c2 777).2 (log0 ++ [(c2, (mkdir w c2 777).1)])
      refine ⟨(c2, (mkdir w c2 777).1) :: calls, ?_, ?_, ?_, ?_, ?_, ?_⟩
      · rw [if_neg hh, if_neg hh]
        rw [h1]
        simp
      · simp [h2]
      · intro c hc
        cases calls with
        | nil => simp at hc
        | cons x xs =>
          rw [List.dropLast_cons₂, List.mem_cons] at hc
          rcases hc with rfl | hc
          · exact hh
          · exact h3 c hc
      · rw [if_neg hh, h4]
        simp only [List.mem_cons, forall_eq_or_imp]
        exact ⟨fun h => ⟨hh, h⟩, fun h => h.2⟩
      · rw [if_neg hh]
        intro h
        simp [h5 h]
      · simp

/-- C1. For a path made of `k ≥ 1` non-empty segments without `/`, joined by single `/`
characters (and short enough for its indices to fit in an `int`, as every string of the target
is), `CreateFatDirectory` returns, and the calls it makes to `mkdir` are an initial part of the
cumulative paths `seg1`, `seg1/seg2`, ..., in that order, with at least one call; none but
the last call can have failed with an error other than `EEXIST`; the result is true exactly
when no call failed in that way, and then there were exactly `k` calls. The run without the
log gives the same result and world. -/
theorem CreateFatDirectory_calls {σ : Type} (mkdir : σ → Str → Nat → CallResult × σ) (w : σ)
    (segs : List Str) (hne : segs ≠ []) (hseg : ∀ t ∈ segs, t ≠ [] ∧ '/' ∉ t)
    (hlen : (joinSlash segs).length < 2 ^ 31) :
    ∃ (res : Bool) (w2 : σ) (calls : List (Str × CallResult)),
      CreateFatDirectory (logged mkdir) (joinSlash segs) (w, []) = Except.ok (res, (w2, calls)) ∧
      CreateFatDirectory mkdir (joinSlash segs) w = Except.ok (res, w2) ∧
      calls ≠ [] ∧
      calls.map Prod.fst = (cumulative segs).take calls.length ∧
      (∀ c ∈ calls.dropLast, ¬ c.2.hardFailure) ∧
      (res = true ↔ ∀ c ∈ calls, ¬ c.2.hardFailure) ∧
      (res = true → calls.length = segs.length) := by
  have htok : tokens (joinSlash segs) = segs :=
    tokens_joinSlash segs hne (fun t ht => (hseg t ht).2)
  obtain ⟨calls, h1, h2, h3, h4, h5, h6⟩ := createTokens_logged mkdir segs [] w []
  refine ⟨(createTokens mkdir segs [] w).1, (createTokens mkdir segs [] w).2, calls, ?_, ?_,
    h6 hne, ?_, h3, h4, h5⟩
  · rw [CreateFatDirectory_eq _ _ hlen, htok, h1, List.nil_append]
  · rw [CreateFatDirectory_eq _ _ hlen, htok]
  · rw [h2, pathsFrom_nil segs (fun t ht => (hseg t ht).1)]

/-- Witness for C1: the path `a/b/c` against the directory tree model, from the empty root. -/
theorem CreateFatDirectory_calls_witness :
    ∃ (res : Bool) (w2 : FileSystem) (calls : List (Str × CallResult)),
      CreateFatDirectory (logged mkdirFS) (joinSlash [['a'], ['b'], ['c']]) ([], []) =
        Except.ok (res, (w2, calls)) ∧
      CreateFatDirectory mkdirFS (joinSlash [['a'], ['b'], ['c']]) [] = Except.ok (res, w2) ∧
      calls ≠ [] ∧
      calls.map Prod.fst = (cumulative [['a'], ['b'], ['c']]).take calls.length ∧
      (∀ c ∈ calls.dropLast, ¬ c.2.hardFailure) ∧
      (res = true ↔ ∀ c ∈ calls, ¬ c.2.hardFailure) ∧
      (res = true → calls.length = [['a'], ['b'], ['c']].length) :=
  CreateFatDirectory_calls mkdirFS [] [['a'], ['b'], ['c']] (by decide) (by decide) (by decide)

theorem joinSlash_cons (t : Str) (ts : List Str) (h : ts ≠ []) :
    joinSlash (t :: ts) = t ++ '/' :: joinSlash ts := by
  cases ts with
  | nil => exact absurd rfl h
  | cons u us => rfl

theorem joinSlash_tokens (s : Str) : joinSlash (tokens s) = s := by
  induction s with
  | nil => rfl
  | cons c cs ih =>
    unfold tokens
    by_cases hc : c = '/'
    · rw [if_pos hc, joinSlash_cons _ _ (tokens_ne_nil cs), ih, hc]
      rfl
    · rw [if_neg hc]
      cases ht : tokens cs with
      | nil => exact absurd ht (tokens_ne_nil cs)
      | cons t ts =>
        rw [ht] at ih
        cases ts with
        | nil =>
          simp only [joinSlash] at ih
          simp [joinSlash, ih]
        | cons u us =>
          simp only [joinSlash] at ih
          simp [joinSlash, ih]

theorem cumulative_is_initial (l : List Str) :
    ∀ p ∈ cumulative l, ∃ rest, joinSlash l = p ++ rest := by
  induction l with
  | nil => intro p hp; simp [cumulative] at hp
  | cons t ts ih =>
    intro p hp
    rw [cumulative_cons, List.mem_cons, List.mem_map] at hp
    rcases hp with rfl | ⟨q, hq, rfl⟩
    · cases ts with
      | nil => exact ⟨[], by simp [joinSlash]⟩
      | cons u us => exact ⟨'/' :: joinSlash (u :: us), rfl⟩
    · have hts : ts ≠ [] := by
        rintro rfl
        simp [cumulative] at hq
      obtain ⟨rest, hrest⟩ := ih q hq
      exact ⟨rest, by rw [joinSlash_cons _ _ hts, hrest]; simp⟩

theorem pathsFrom_nil_cons (t : Str) (ts : List Str) (h : t ≠ []) :
    pathsFrom [] (t :: ts) = cumulative (t :: ts) := by
  rw [pathsFrom, if_neg (by simp), List.nil_append, pathsFrom_of_ne_nil _ h, cumulative_cons]

/-- Every value of `cur_dir` is an initial part of the path once the `/` characters at its
start are taken away. -/
theorem pathsFrom_tokens_is_initial (s : Str) :
    ∀ p ∈ pathsFrom [] (tokens s),
      ∃ rest, s.dropWhile (fun c => decide (c = '/')) = p ++ rest := by
  induction s with
  | nil =>
    intro p hp
    simp only [tokens, pathsFrom, List.mem_cons, List.mem_nil_iff, or_false] at hp
    exact ⟨[], by simp [hp]⟩
  | cons c cs ih =>
    intro p hp
    by_cases hc : c = '/'
    · rw [tokens, if_pos hc, pathsFrom] at hp
      simp only [ne_eq, not_true_eq_false, if_false, List.append_nil, List.mem_cons] at hp
      rw [List.dropWhile_cons, if_pos (by simp [hc])]
      rcases hp with rfl | hp
      · exact ⟨_, (List.nil_append _).symm⟩
      · exact ih p hp
    · rw [List.dropWhile_cons, if_neg (by simp [hc])]
      have ht : ∃ t ts, tokens (c :: cs) = t :: ts ∧ t ≠ [] := by
        rw [tokens, if_neg hc]
        exact ⟨_, _, rfl, by simp⟩
      obtain ⟨t, ts, hts, hne⟩ := ht
      rw [hts, pathsFrom_nil_cons t ts hne, ← hts] at hp
      obtain ⟨rest, hrest⟩ := cumulative_is_initial _ p hp
      rw [joinSlash_tokens] at hrest
      exact ⟨rest, hrest⟩

/-- C9, counterexample. On the path `/a`, with a `mkdir` that accepts every path it is given,
`CreateFatDirectory` calls `mkdir` on the empty path and then on `a`, and `a` is not an
initial part of `/a`. -/
theorem CreateFatDirectory_leading_slash :
    CreateFatDirectory (logged (mkdirConst { ret := 0, errno := 0 })) ['/', 'a'] ((), []) =
      Except.ok (true, ((), [([], { ret := 0, errno := 0 }), (['a'], { ret := 0, errno := 0 })]))
    ∧ ¬ ∃ rest, ['/', 'a'] = ['a'] ++ rest := by
  refine ⟨rfl, ?_⟩
  rintro ⟨rest, h⟩
  simp at h

/-- C9, amended. For every path (short enough for its indices to fit in an `int`, as every
string of the target is) and every behaviour of `mkdir`, `CreateFatDirectory` returns, and
every path it passes to `mkdir` is an initial part of the input with the `/` characters at its
start taken away; so it is an initial part of the input itself when the input does not start
with `/`, whatever separators follow. -/
theorem CreateFatDirectory_paths_initial {σ : Type} (mkdir : σ → Str → Nat → CallResult × σ)
    (dir : Str) (w : σ) (hlen : dir.length < 2 ^ 31) :
    ∃ (res : Bool) (w2 : σ) (calls : List (Str × CallResult)),
      CreateFatDirectory (logged mkdir) dir (w, []) = Except.ok (res, (w2, calls)) ∧
      (∀ c ∈ calls, ∃ rest, dir.dropWhile (fun c => decide (c = '/')) = c.1 ++ rest) ∧
      (dir.head? ≠ some '/' → ∀ c ∈ calls, ∃ rest, dir = c.1 ++ rest) := by
  obtain ⟨calls, h1, h2, -⟩ := createTokens_logged mkdir (tokens dir) [] w []
  have hall : ∀ c ∈ calls, ∃ rest, dir.dropWhile (fun c => decide (c = '/')) = c.1 ++ rest := by
    intro c hc
    apply pathsFrom_tokens_is_initial dir c.1
    have : c.1 ∈ calls.map Prod.fst := List.mem_map_of_mem _ hc
    rw [h2] at this
    exact List.mem_of_mem_take this
  refine ⟨(createTokens mkdir (tokens dir) [] w).1, (createTokens mkdir (tokens dir) [] w).2,
    calls, ?_, hall, ?_⟩
  · rw [CreateFatDirectory_eq _ _ hlen, h1, List.nil_append]
  · intro hhead c hc
    have hd : dir.dropWhile (fun c => decide (c = '/')) = dir := by
      cases dir with
      | nil => rfl
      | cons x xs =>
        rw [List.dropWhile_cons, if_neg]
        simpa using hhead
    rw [← hd]
    exact hall c hc

/-- Witness for C9 as amended: the path `a//b/`, with a doubled and a trailing separator. -/
theorem CreateFatDirectory_paths_initial_witness :
    ∃ (res : Bool) (w2 : FileSystem) (calls : List (Str × CallResult)),
      CreateFatDirectory (logged mkdirFS) ['a', '/', '/', 'b', '/'] ([], []) =
        Except.ok (res, (w2, calls)) ∧
      (∀ c ∈ calls, ∃ rest,
        ['a', '/', '/', 'b', '/'].dropWhile (fun c => decide (c = '/')) = c.1 ++ rest) ∧
      ((['a', '/', '/', 'b', '/'] : Str).head? ≠ some '/' →
        ∀ c ∈ calls, ∃ rest, ['a', '/', '/', 'b', '/'] = c.1 ++ rest) :=
  CreateFatDirectory_paths_initial mkdirFS ['a', '/', '/', 'b', '/'] [] (by decide)

theorem joinSlash_append_singleton (pre : List Str) (t : Str) (h : pre ≠ []) :
    joinSlash (pre ++ [t]) = joinSlash pre ++ '/' :: t := by
  induction pre with
  | nil => exact absurd rfl h
  | cons x xs ih =>
    cases xs with
    | nil => rfl
    | cons y ys =>
      rw [List.cons_append, joinSlash_cons x ((y :: ys) ++ [t]) (by simp), ih (by simp),
        joinSlash_cons x (y :: ys) (by simp)]
      simp

theorem joinSlash_ne_nil (pre : List Str) (h : pre ≠ []) (hx : ∀ x ∈ pre, x ≠ []) :
    joinSlash pre ≠ [] := by
  cases pre with
  | nil => exact absurd rfl h
  | cons x xs =>
    cases xs with
    | nil => exact hx x (by simp)
    | cons y ys =>
      rw [joinSlash_cons _ _ (by simp)]
      simp

/-- The path that the loop builds from `seg1/.../segi` and the next segment. -/
theorem next_cur_dir (pre : List Str) (t : Str) (hx : ∀ x ∈ pre, x ≠ []) :
    (if joinSlash pre ≠ [] then joinSlash pre ++ ['/'] else joinSlash pre) ++ t =
      joinSlash (pre ++ [t]) := by
  by_cases h : pre = []
  · subst h
    simp [joinSlash]
  · rw [if_pos (joinSlash_ne_nil pre h hx), joinSlash_append_singleton pre t h]
    simp

theorem dirChain_append (pre : List Str) (t : Str) :
    dirChain (pre ++ [t]) = dirChain pre ++ [{ path := pre ++ [t], d_type := DT_DIR }] := by
  unfold dirChain
  rw [List.length_append, List.length_singleton, List.range_succ, List.map_append]
  congr 1
  · refine List.map_congr_left fun i hi => ?_
    have hi2 : i < pre.length := List.mem_range.mp hi
    rw [List.take_append_of_le_length (by omega)]
  · simp

theorem dirChain_mem (segs : List Str) (e : Entry) :
    e ∈ dirChain segs ↔ ∃ i, i < segs.length ∧ e = { path := segs.take (i + 1), d_type := DT_DIR } := by
  unfold dirChain
  simp only [List.mem_map, List.mem_range]
  constructor
  · rintro ⟨i, hi, rfl⟩
    exact ⟨i, hi, rfl⟩
  · rintro ⟨i, hi, rfl⟩
    exact ⟨i, hi, rfl⟩

theorem hasEntry_iff (fs : FileSystem) (key : List Str) :
    fs.hasEntry key = true ↔ ∃ e ∈ fs, e.path = key := by
  simp [FileSystem.hasEntry]

theorem isDirectory_iff (fs : FileSystem) (key : List Str) :
    fs.isDirectory key = true ↔ ∃ e ∈ fs, e.path = key ∧ e.d_type = DT_DIR := by
  simp [FileSystem.isDirectory]

theorem isNonDirectory_iff (fs : FileSystem) (key : List Str) :
    fs.isNonDirectory key = true ↔ ∃ e ∈ fs, e.path = key ∧ e.d_type ≠ DT_DIR := by
  simp [FileSystem.isNonDirectory]

/-- From the chain of `pre`, creating the remaining segments one after the other succeeds. -/
theorem createTokens_fresh (ts : List Str) :
    ∀ pre : List Str, (∀ x ∈ pre ++ ts, x ≠ [] ∧ '/' ∉ x) →
      createTokens mkdirFS ts (joinSlash pre) (dirChain pre) = (true, dirChain (pre ++ ts)) := by
  induction ts with
  | nil => intro pre _; simp [createTokens]
  | cons t rest ih =>
    intro pre hx
    have hpre : ∀ x ∈ pre, x ≠ [] := fun x h => (hx x (List.mem_append_left _ h)).1
    have hkey : tokens (joinSlash (pre ++ [t])) = pre ++ [t] := by
      apply tokens_joinSlash _ (by simp)
      intro x h
      apply (hx x _).2
      rw [List.mem_append] at h ⊢
      rcases h with h | h
      · exact Or.inl h
      · exact Or.inr (by rw [List.mem_singleton] at h; simp [h])
    have hno : (dirChain pre).hasEntry (pre ++ [t]) = false := by
      rw [Bool.eq_false_iff, ne_eq, hasEntry_iff]
      rintro ⟨e, he, hp⟩
      obtain ⟨i, hi, rfl⟩ := (dirChain_mem _ _).mp he
      have := congrArg List.length hp
      simp only [List.length_take, List.length_append, List.length_singleton] at this
      omega
    have hpar : (pre ++ [t]).dropLast = [] ∨ (dirChain pre).isDirectory (pre ++ [t]).dropLast = true := by
      rw [List.dropLast_concat]
      by_cases h : pre = []
      · exact Or.inl h
      · right
        rw [isDirectory_iff]
        refine ⟨{ path := pre, d_type := DT_DIR }, ?_, rfl, rfl⟩
        rw [dirChain_mem]
        have hl : 0 < pre.length := List.length_pos.mpr h
        refine ⟨pre.length - 1, by omega, ?_⟩
        rw [Nat.sub_add_cancel hl, List.take_length]
    rw [createTokens, next_cur_dir pre t hpre]
    simp only [mkdirFS, hkey, hno, if_pos hpar]
    rw [if_neg (by simp), ← dirChain_append]
    have := ih (pre ++ [t]) (by simpa using hx)
    simpa using this

/-- When every directory on the way is there already, the run changes nothing and succeeds. -/
theorem createTokens_present (ts : List Str) :
    ∀ (pre : List Str) (fs : FileSystem), (∀ x ∈ pre ++ ts, x ≠ [] ∧ '/' ∉ x) →
      (∀ j, 0 < j → j ≤ ts.length → fs.hasEntry (pre ++ ts.take j) = true) →
      createTokens mkdirFS ts (joinSlash pre) fs = (true, fs) := by
  induction ts with
  | nil => intro pre fs _ _; simp [createTokens]
  | cons t rest ih =>
    intro pre fs hx hfs
    have hpre : ∀ x ∈ pre, x ≠ [] := fun x h => (hx x (List.mem_append_left _ h)).1
    have hkey : tokens (joinSlash (pre ++ [t])) = pre ++ [t] := by
      apply tokens_joinSlash _ (by simp)
      intro x h
      apply (hx x _).2
      rw [List.mem_append] at h ⊢
      rcases h with h | h
      · exact Or.inl h
      · exact Or.inr (by rw [List.mem_singleton] at h; simp [h])
    have hyes : fs.hasEntry (pre ++ [t]) = true := by
      have := hfs 1 (by omega) (by simp)
      simpa using this
    rw [createTokens, next_cur_dir pre t hpre]
    simp only [mkdirFS, hkey, hyes, if_true]
    rw [if_neg (by simp)]
    apply ih (pre ++ [t]) fs (by simpa using hx)
    intro j hj hjl
    have := hfs (j + 1) (by omega) (by simp; omega)
    simpa using this

/-- C7. On the directory tree model, for a path of non-empty segments without `/` joined by
single `/` characters (short enough for its indices to fit in an `int`), `CreateFatDirectory`
on the empty root returns true and leaves exactly the nested directories `seg1`,
`seg1/seg2`, ..., so that every cumulative path is a directory; a second call with the same
path returns true and leaves the tree as it is. -/
theorem CreateFatDirectory_nested (segs : List Str) (hne : segs ≠ [])
    (hseg : ∀ t ∈ segs, t ≠ [] ∧ '/' ∉ t) (hlen : (joinSlash segs).length < 2 ^ 31) :
    CreateFatDirectory mkdirFS (joinSlash segs) [] = Except.ok (true, dirChain segs) ∧
    (∀ p ∈ cumulative segs, (dirChain segs).isDirectory (tokens p) = true) ∧
    CreateFatDirectory mkdirFS (joinSlash segs) (dirChain segs) =
      Except.ok (true, dirChain segs) := by
  have htok : tokens (joinSlash segs) = segs :=
    tokens_joinSlash segs hne (fun t ht => (hseg t ht).2)
  refine ⟨?_, ?_, ?_⟩
  · rw [CreateFatDirectory_eq _ _ hlen, htok]
    have := createTokens_fresh segs [] (by simpa using hseg)
    simpa [joinSlash, dirChain] using this
  · intro p hp
    simp only [cumulative, List.mem_map, List.mem_range] at hp
    obtain ⟨i, hi, rfl⟩ := hp
    rw [tokens_joinSlash _ _ (fun t ht => (hseg t (List.mem_of_mem_take ht)).2), isDirectory_iff]
    · exact ⟨_, (dirChain_mem _ _).mpr ⟨i, hi, rfl⟩, rfl, rfl⟩
    · intro h
      have := congrArg List.length h
      simp only [List.length_take, List.length_nil] at this
      omega
  · rw [CreateFatDirectory_eq _ _ hlen, htok]
    have := createTokens_present segs [] (dirChain segs) (by simpa using hseg) (fun j hj hjl => by
      rw [hasEntry_iff]
      refine ⟨_, (dirChain_mem _ _).mpr ⟨j - 1, by omega, rfl⟩, ?_⟩
      simp [Nat.sub_add_cancel hj])
    simpa [joinSlash] using this

/-- Witness for C7: the path `a/b/c`. -/
theorem CreateFatDirectory_nested_witness :
    CreateFatDirectory mkdirFS (joinSlash [['a'], ['b'], ['c']]) [] =
      Except.ok (true, dirChain [['a'], ['b'], ['c']]) ∧
    (∀ p ∈ cumulative [['a'], ['b'], ['c']],
      (dirChain [['a'], ['b'], ['c']]).isDirectory (tokens p) = true) ∧
    CreateFatDirectory mkdirFS (joinSlash [['a'], ['b'], ['c']]) (dirChain [['a'], ['b'], ['c']]) =
      Except.ok (true, dirChain [['a'], ['b'], ['c']]) :=
  CreateFatDirectory_nested [['a'], ['b'], ['c']] (by decide) (by decide) (by decide)

/-! ## `stat` based queries -/

theorem mode_test_eq (m : Nat) : m &&& S_IFREG = (m &&& S_IFMT) &&& S_IFREG := by
  rw [Nat.land_assoc]
  rfl

theorem Exists_eq_IsFatFile (stat : Str → Int × Stat) (path : Str) (out_size : Nat) :
    (FatFileHandle.Exists stat path out_size).1 = IsFatFile stat path := by
  unfold FatFileHandle.Exists IsFatFile
  simp only []
  split
  · split <;> rfl
  · rfl

/-- What `IsFatFile` and `Exists` answer when `stat` succeeds, type by type: true on a regular
file, false on a directory, a character or block device and a FIFO, and true on a symbolic
link and on a socket, whose type values contain the bit of `S_IFREG`. -/
theorem IsFatFile_by_type (stat : Str → Int × Stat) (path : Str) (h0 : (stat path).1 = 0) :
    (fileType (stat path).2 = S_IFREG → IsFatFile stat path = true) ∧
    (fileType (stat path).2 = S_IFDIR → IsFatFile stat path = false) ∧
    (fileType (stat path).2 = S_IFCHR → IsFatFile stat path = false) ∧
    (fileType (stat path).2 = S_IFBLK → IsFatFile stat path = false) ∧
    (fileType (stat path).2 = S_IFIFO → IsFatFile stat path = false) ∧
    (fileType (stat path).2 = S_IFLNK → IsFatFile stat path = true) ∧
    (fileType (stat path).2 = S_IFSOCK → IsFatFile stat path = true) := by
  unfold IsFatFile fileType
  simp only [h0, if_true, mode_test_eq (stat path).2.st_mode]
  refine ⟨?_, ?_, ?_, ?_, ?_, ?_, ?_⟩ <;> intro h <;> rw [h] <;> decide

/-- C2, failing input. When `stat` succeeds on a socket (mode `S_IFSOCK` with permission bits
`0644`), whose file type is not `S_IFREG`, both `IsFatFile` and `FatFileHandle::Exists` answer
true; the same happens on a symbolic link. -/
theorem IsFatFile_true_on_socket :
    (fileType { st_mode := S_IFSOCK ||| 0o644, st_size := 0 } = S_IFSOCK ∧ S_IFSOCK ≠ S_IFREG ∧
      IsFatFile (fun _ => (0, { st_mode := S_IFSOCK ||| 0o644, st_size := 0 })) ['s'] = true ∧
      (FatFileHandle.Exists (fun _ => (0, { st_mode := S_IFSOCK ||| 0o644, st_size := 0 }))
        ['s'] 0).1 = true) ∧
    (fileType { st_mode := S_IFLNK ||| 0o777, st_size := 0 } = S_IFLNK ∧ S_IFLNK ≠ S_IFREG ∧
      IsFatFile (fun _ => (0, { st_mode := S_IFLNK ||| 0o777, st_size := 0 })) ['l'] = true ∧
      (FatFileHandle.Exists (fun _ => (0, { st_mode := S_IFLNK ||| 0o777, st_size := 0 }))
        ['l'] 0).1 = true) := by
  decide

/-! ## Recursive listing and deletion -/

theorem ListAllFatFiles.readLoop_collects (path : Str) (entries : List Dirent) :
    ∀ subdirs out_files, ListAllFatFiles.readLoop path entries subdirs out_files =
      (subdirs ++ subdirPaths path entries, out_files ++ subfilePaths path entries) := by
  induction entries with
  | nil => intro s o; simp [ListAllFatFiles.readLoop, subdirPaths, subfilePaths]
  | cons ent more ih =>
    intro s o
    unfold ListAllFatFiles.readLoop
    by_cases h1 : ent.d_name = ['.']
    · rw [if_pos h1, ih]
      simp [subdirPaths, subfilePaths, h1]
    · rw [if_neg h1]
      by_cases h2 : ent.d_name = ['.', '.']
      · rw [if_pos h2, ih]
        simp [subdirPaths, subfilePaths, h2]
      · rw [if_neg h2]
        by_cases h3 : ent.d_type &&& DT_DIR ≠ 0
        · simp only [if_pos h3, ih]
          have h3b : ¬ ent.d_type &&& DT_DIR = 0 := h3
          simp [subdirPaths, subfilePaths, h1, h2, treatedAsDir, treatedAsFile, h3b]
        · simp only [if_neg h3]
          have h3b : ent.d_type &&& DT_DIR = 0 := not_not.mp h3
          by_cases h4 : ent.d_type &&& DT_REG ≠ 0
          · simp only [if_pos h4, ih]
            have h4b : ¬ ent.d_type &&& DT_REG = 0 := h4
            simp [subdirPaths, subfilePaths, h1, h2, treatedAsDir, treatedAsFile, h3b, h4b]
          · simp only [if_neg h4, ih]
            have h4b : ent.d_type &&& DT_REG = 0 := not_not.mp h4
            simp [subdirPaths, subfilePaths, h1, h2, treatedAsDir, treatedAsFile, h3b, h4b]

theorem DeleteFatDirectory.readLoop_partitions (path : Str) (entries : List Dirent) :
    ∀ subfiles subdirs, DeleteFatDirectory.readLoop path entries subfiles subdirs =
      (subfiles ++ subfilePaths path entries, subdirs ++ subdirPaths path entries) := by
  induction entries with
  | nil => intro s o; simp [DeleteFatDirectory.readLoop, subdirPaths, subfilePaths]
  | cons ent more ih =>
    intro s o
    unfold DeleteFatDirectory.readLoop
    by_cases h1 : ent.d_name = ['.']
    · rw [if_pos h1, ih]
      simp [subdirPaths, subfilePaths, h1]
    · rw [if_neg h1]
      by_cases h2 : ent.d_name = ['.', '.']
      · rw [if_pos h2, ih]
        simp [subdirPaths, subfilePaths, h2]
      · rw [if_neg h2]
        by_cases h3 : ent.d_type &&& DT_DIR ≠ 0
        · simp only [if_pos h3, ih]
          have h3b : ¬ ent.d_type &&& DT_DIR = 0 := h3
          simp [subdirPaths, subfilePaths, h1, h2, treatedAsDir, treatedAsFile, h3b]
        · simp only [if_neg h3]
          have h3b : ent.d_type &&& DT_DIR = 0 := not_not.mp h3
          by_cases h4 : ent.d_type &&& DT_REG ≠ 0
          · simp only [if_pos h4, ih]
            have h4b : ¬ ent.d_type &&& DT_REG = 0 := h4
            simp [subdirPaths, subfilePaths, h1, h2, treatedAsDir, treatedAsFile, h3b, h4b]
          · simp only [if_neg h4, ih]
            have h4b : ent.d_type &&& DT_REG = 0 := not_not.mp h4
            simp [subdirPaths, subfilePaths, h1, h2, treatedAsDir, treatedAsFile, h3b, h4b]

/-- The loop over `subdirs` returns true and only appends when the recursive call does. -/
theorem ListAllFatFiles.forSubdirs_some (recurse : Str → List Str → Option (Bool × List Str))
    (hrec : ∀ d o r, recurse d o = some r → r.1 = true ∧ ∃ more, r.2 = o ++ more) :
    ∀ ds o r, ListAllFatFiles.forSubdirs recurse ds o = some r →
      r.1 = true ∧ ∃ more, r.2 = o ++ more := by
  intro ds
  induction ds with
  | nil =>
    intro o r h
    simp only [ListAllFatFiles.forSubdirs, Option.some.injEq] at h
    subst h
    exact ⟨rfl, [], by simp⟩
  | cons d more ih =>
    intro o r h
    unfold ListAllFatFiles.forSubdirs at h
    cases hr : recurse d o with
    | none => simp [hr] at h
    | some r1 =>
      obtain ⟨h1, m1, hm1⟩ := hrec d o r1 hr
      simp only [hr, h1, Bool.not_true, Bool.false_eq_true, if_false] at h
      obtain ⟨h2, m2, hm2⟩ := ih r1.2 r h
      exact ⟨h2, m1 ++ m2, by rw [hm2, hm1, List.append_assoc]⟩

/-- For every behaviour of `opendir` and every bound on the depth, a call of `ListAllFatFiles`
that returns has returned true and has only appended to `out_files`. -/
theorem ListAllFatFiles_some (opendir : Str → Option (List Dirent)) :
    ∀ fuel path out_files r, ListAllFatFiles opendir fuel path out_files = some r →
      r.1 = true ∧ ∃ more, r.2 = out_files ++ more := by
  intro fuel
  induction fuel with
  | zero => intro path o r h; simp [ListAllFatFiles] at h
  | succ fuel ih =>
    intro path o r h
    unfold ListAllFatFiles at h
    cases ho : opendir path with
    | none =>
      simp only [ho, Option.some.injEq] at h
      subst h
      exact ⟨rfl, [], by simp⟩
    | some entries =>
      simp only [ho, ListAllFatFiles.readLoop_collects, List.nil_append] at h
      obtain ⟨h1, m, hm⟩ := ListAllFatFiles.forSubdirs_some _ ih _ _ _ h
      exact ⟨h1, subfilePaths path entries ++ m, by rw [hm, List.append_assoc]⟩

theorem tokens_append (a b : Str) : tokens (a ++ '/' :: b) = tokens a ++ tokens b := by
  induction a with
  | nil => simp [tokens]
  | cons c cs ih =>
    rw [List.cons_append, tokens, tokens]
    by_cases hc : c = '/'
    · rw [if_pos hc, if_pos hc, ih]
      rfl
    · rw [if_neg hc, if_neg hc, ih]
      cases ht : tokens cs with
      | nil => exact absurd ht (tokens_ne_nil cs)
      | cons t ts => rfl

theorem tokens_length_pos (s : Str) : 0 < (tokens s).length :=
  List.length_pos.mpr (tokens_ne_nil s)

theorem FileSystem.length_le_depth (fs : FileSystem) (e : Entry) (he : e ∈ fs) :
    e.path.length ≤ fs.depth := by
  unfold FileSystem.depth
  induction fs with
  | nil => simp at he
  | cons x xs ih =>
    rw [List.map_cons, List.foldr_cons]
    rcases List.mem_cons.mp he with rfl | h
    · exact le_max_left _ _
    · exact le_trans (ih h) (le_max_right _ _)

theorem opendirFS_some (fs : FileSystem) (path : Str) (entries : List Dirent)
    (h : opendirFS fs path = some entries) :
    fs.isDirectory (tokens path) = true ∧
    entries = { d_name := ['.'], d_type := DT_DIR } :: { d_name := ['.', '.'], d_type := DT_DIR } ::
      childEntries fs (tokens path) := by
  unfold opendirFS at h
  by_cases hd : fs.isDirectory (tokens path) = true
  · rw [if_pos hd, Option.some.injEq] at h
    exact ⟨hd, h.symm⟩
  · rw [if_neg hd] at h
    exact absurd h (by simp)

theorem opendirFS_none (fs : FileSystem) (path : Str) (h : opendirFS fs path = none) :
    fs.isDirectory (tokens path) = false := by
  unfold opendirFS at h
  by_cases hd : fs.isDirectory (tokens path) = true
  · rw [if_pos hd] at h
    exact absurd h (by simp)
  · simpa using hd

theorem subdirPaths_mem (path : Str) (entries : List Dirent) (d : Str)
    (h : d ∈ subdirPaths path entries) :
    ∃ ent ∈ entries, d = path ++ '/' :: ent.d_name ∧ ent.d_name ≠ ['.'] ∧
      ent.d_name ≠ ['.', '.'] ∧ treatedAsDir ent.d_type = true := by
  simp only [subdirPaths, List.mem_map, List.mem_filter, Bool.and_eq_true, decide_eq_true_eq] at h
  obtain ⟨ent, ⟨he, ⟨h1, h2⟩, h3⟩, rfl⟩ := h
  exact ⟨ent, he, by simp, h1, h2, h3⟩

theorem ListAllFatFiles.forSubdirs_returns (recurse : Str → List Str → Option (Bool × List Str))
    (ds : List Str) (hrec : ∀ d ∈ ds, ∀ o, ∃ r, recurse d o = some r) :
    ∀ o, ∃ r, ListAllFatFiles.forSubdirs recurse ds o = some r := by
  induction ds with
  | nil => intro o; exact ⟨_, rfl⟩
  | cons d more ih =>
    intro o
    obtain ⟨r1, hr1⟩ := hrec d (by simp) o
    unfold ListAllFatFiles.forSubdirs
    simp only [hr1]
    split
    · exact ⟨_, rfl⟩
    · exact ih (fun d hd => hrec d (List.mem_cons_of_mem _ hd)) _

/-- On a finite tree the recursion of `ListAllFatFiles` ends: a depth bound that exceeds the
number of levels of the tree below the path is never reached. -/
theorem ListAllFatFiles_returns (fs : FileSystem) :
    ∀ fuel path out_files, 1 ≤ fuel → fs.depth + 2 ≤ fuel + (tokens path).length →
      ∃ r, ListAllFatFiles (opendirFS fs) fuel path out_files = some r := by
  intro fuel
  induction fuel with
  | zero => intro path o h; omega
  | succ fuel ih =>
    intro path o _ hfuel
    unfold ListAllFatFiles
    cases ho : opendirFS fs path with
    | none => exact ⟨_, rfl⟩
    | some entries =>
      simp only [ListAllFatFiles.readLoop_collects, List.nil_append]
      obtain ⟨hd, -⟩ := opendirFS_some fs path entries ho
      obtain ⟨e, he, hp, -⟩ := (isDirectory_iff _ _).mp hd
      have hle := fs.length_le_depth e he
      rw [hp] at hle
      apply ListAllFatFiles.forSubdirs_returns
      intro d hd2 o2
      obtain ⟨ent, -, rfl, -⟩ := subdirPaths_mem _ _ _ hd2
      apply ih _ _ (by omega)
      rw [tokens_append, List.length_append]
      have := tokens_length_pos ent.d_name
      omega

/-- C10. On every finite directory tree, for every path (a directory of the tree or not) and
every initial content of `out_files`, `ListAllFatFiles` returns true and leaves `out_files`
extended at its end, for every bound on the depth of the recursion above the depth of the
tree; and whatever `opendir` does and whatever the bound on the depth, a call that returns
never returns false and only appends. -/
theorem ListAllFatFiles_always_true (fs : FileSystem) (path : Str) (out_files : List Str) :
    (∀ extra, ∃ more, ListAllFatFiles (opendirFS fs) (fs.depth + 2 + extra) path out_files =
      some (true, out_files ++ more)) ∧
    (∀ (opendir : Str → Option (List Dirent)) (fuel : Nat) (r : Bool × List Str),
      ListAllFatFiles opendir fuel path out_files = some r →
        r.1 = true ∧ ∃ more, r.2 = out_files ++ more) := by
  refine ⟨fun extra => ?_,
    fun opendir fuel r h => ListAllFatFiles_some opendir fuel path out_files r h⟩
  obtain ⟨r, hr⟩ := ListAllFatFiles_returns fs (fs.depth + 2 + extra) path out_files (by omega)
    (by omega)
  obtain ⟨h1, more, hm⟩ := ListAllFatFiles_some _ _ _ _ _ hr
  refine ⟨more, ?_⟩
  rw [hr, ← hm, ← h1]

theorem ListAllFatFiles.forSubdirs_out (recurse : Str → List Str → Option (Bool × List Str))
    (hrec : ∀ d o, recurse d o = (recurse d []).map (fun r => (r.1, o ++ r.2))) :
    ∀ ds o1 o2, ListAllFatFiles.forSubdirs recurse ds (o1 ++ o2) =
      (ListAllFatFiles.forSubdirs recurse ds o2).map (fun r => (r.1, o1 ++ r.2)) := by
  intro ds
  induction ds with
  | nil => intro o1 o2; rfl
  | cons d more ih =>
    intro o1 o2
    unfold ListAllFatFiles.forSubdirs
    rw [hrec d (o1 ++ o2), hrec d o2]
    cases recurse d [] with
    | none => rfl
    | some r =>
      simp only [Option.map_some']
      cases r.1 with
      | false => simp
      | true =>
        simp only [Bool.not_true, Bool.false_eq_true, if_false]
        rw [List.append_assoc, ih]

/-- What a call adds to `out_files` does not depend on what `out_files` holds already. -/
theorem ListAllFatFiles_out (opendir : Str → Option (List Dirent)) :
    ∀ fuel path o, ListAllFatFiles opendir fuel path o =
      (ListAllFatFiles opendir fuel path []).map (fun r => (r.1, o ++ r.2)) := by
  intro fuel
  induction fuel with
  | zero => intro path o; rfl
  | succ fuel ih =>
    intro path o
    unfold ListAllFatFiles
    cases opendir path with
    | none => simp
    | some entries =>
      simp only [ListAllFatFiles.readLoop_collects, List.nil_append]
      exact ListAllFatFiles.forSubdirs_out _ ih _ _ _

theorem ListAllFatFiles.forSubdirs_eq_bind (opendir : Str → Option (List Dirent)) (fuel : Nat)
    (ds : List Str) (hret : ∀ d ∈ ds, ∃ r, ListAllFatFiles opendir fuel d [] = some r) :
    ∀ o, ListAllFatFiles.forSubdirs (ListAllFatFiles opendir fuel) ds o =
      some (true, o ++ ds.flatMap (listedBy opendir fuel)) := by
  induction ds with
  | nil => intro o; simp [ListAllFatFiles.forSubdirs]
  | cons d more ih =>
    intro o
    obtain ⟨r, hr⟩ := hret d (by simp)
    obtain ⟨h1, -⟩ := ListAllFatFiles_some opendir fuel d [] r hr
    unfold ListAllFatFiles.forSubdirs
    rw [ListAllFatFiles_out opendir fuel d o, hr]
    simp only [Option.map_some', h1, Bool.not_true, Bool.false_eq_true, if_false]
    rw [ih (fun d hd => hret d (List.mem_cons_of_mem _ hd))]
    simp [listedBy, hr]

theorem childName_eq_some (key p : List Str) (n : Str) :
    childName key p = some n ↔ p = key ++ [n] := by
  unfold childName
  constructor
  · intro h
    by_cases hk : p.dropLast = key
    · rw [if_pos hk] at h
      have hne : p ≠ [] := by
        rintro rfl
        simp at h
      rw [← List.dropLast_append_getLast hne, hk]
      rw [List.getLast?_eq_getLast _ hne, Option.some.injEq] at h
      rw [h]
    · rw [if_neg hk] at h
      exact absurd h (by simp)
  · rintro rfl
    simp

theorem childEntries_mem (fs : FileSystem) (key : List Str) (ent : Dirent) :
    ent ∈ childEntries fs key ↔
      ∃ e ∈ fs, e.path = key ++ [ent.d_name] ∧ e.d_type = ent.d_type := by
  simp only [childEntries, List.mem_filterMap, Option.map_eq_some']
  constructor
  · rintro ⟨e, he, n, hn, rfl⟩
    exact ⟨e, he, (childName_eq_some _ _ _).mp hn, rfl⟩
  · rintro ⟨e, he, hp, ht⟩
    exact ⟨e, he, ent.d_name, (childName_eq_some _ _ _).mpr hp, by rw [ht]⟩

theorem childEntries_sublist (fs : FileSystem) (key : List Str) :
    List.Sublist ((childEntries fs key).map (fun ent => key ++ [ent.d_name]))
      (fs.map Entry.path) := by
  induction fs with
  | nil => simp [childEntries]
  | cons e rest ih =>
    unfold childEntries at ih ⊢
    rw [List.filterMap_cons]
    cases hc : childName key e.path with
    | none =>
      simp only [Option.map_none', List.map_cons]
      exact List.Sublist.cons _ ih
    | some n =>
      have hp := (childName_eq_some _ _ _).mp hc
      simp only [Option.map_some', List.map_cons, ← hp]
      exact List.Sublist.cons₂ _ ih

theorem tokens_subpath (path n : Str) (hn : '/' ∉ n) :
    tokens (path ++ '/' :: n) = tokens path ++ [n] := by
  rw [tokens_append, tokens_no_slash n hn]

theorem WellFormed_name (fs : FileSystem) (hwf : fs.WellFormed) (e : Entry) (he : e ∈ fs)
    (n : Str) (hn : n ∈ e.path) : n ≠ [] ∧ '/' ∉ n ∧ n ≠ ['.'] ∧ n ≠ ['.', '.'] :=
  (hwf.2.1 e he).2 n hn

/-- The paths of the children taken by a filter have pairwise distinct lists of names. -/
theorem children_tokens_nodup (fs : FileSystem) (hwf : fs.WellFormed) (path : Str)
    (P : Dirent → Bool) :
    (((childEntries fs (tokens path)).filter P).map
      (fun ent => tokens (path ++ ['/'] ++ ent.d_name))).Nodup := by
  have h1 : ((childEntries fs (tokens path)).filter P).map
      (fun ent => tokens (path ++ ['/'] ++ ent.d_name)) =
      ((childEntries fs (tokens path)).filter P).map (fun ent => tokens path ++ [ent.d_name]) := by
    apply List.map_congr_left
    intro ent hent
    obtain ⟨e, he, hp, -⟩ := (childEntries_mem _ _ _).mp (List.mem_of_mem_filter hent)
    have := WellFormed_name fs hwf e he ent.d_name (by rw [hp]; simp)
    simp only [List.append_assoc, List.singleton_append]
    exact tokens_subpath path ent.d_name this.2.1
  rw [h1]
  exact ((List.filter_sublist _).map _).nodup
    ((childEntries_sublist fs (tokens path)).nodup hwf.1)

theorem subfilePaths_opendir (fs : FileSystem) (path : Str) :
    subfilePaths path ({ d_name := ['.'], d_type := DT_DIR } ::
      { d_name := ['.', '.'], d_type := DT_DIR } :: childEntries fs (tokens path)) =
    ((childEntries fs (tokens path)).filter (fun ent => decide (ent.d_name ≠ ['.']) &&
      decide (ent.d_name ≠ ['.', '.']) && treatedAsFile ent.d_type)).map
        (fun ent => path ++ ['/'] ++ ent.d_name) := by
  simp [subfilePaths]

theorem subdirPaths_opendir (fs : FileSystem) (path : Str) :
    subdirPaths path ({ d_name := ['.'], d_type := DT_DIR } ::
      { d_name := ['.', '.'], d_type := DT_DIR } :: childEntries fs (tokens path)) =
    ((childEntries fs (tokens path)).filter (fun ent => decide (ent.d_name ≠ ['.']) &&
      decide (ent.d_name ≠ ['.', '.']) && treatedAsDir ent.d_type)).map
        (fun ent => path ++ ['/'] ++ ent.d_name) := by
  simp [subdirPaths]

/-- The files that the `readdir` loop finds in an open directory of a well formed tree. -/
theorem subfilePaths_mem (fs : FileSystem) (hwf : fs.WellFormed) (path q : Str) :
    q ∈ subfilePaths path ({ d_name := ['.'], d_type := DT_DIR } ::
      { d_name := ['.', '.'], d_type := DT_DIR } :: childEntries fs (tokens path)) ↔
    ∃ e ∈ fs, ∃ n, e.path = tokens path ++ [n] ∧ treatedAsFile e.d_type = true ∧
      q = path ++ '/' :: n := by
  rw [subfilePaths_opendir]
  simp only [List.mem_map, List.mem_filter, Bool.and_eq_true, decide_eq_true_eq]
  constructor
  · rintro ⟨ent, ⟨hent, -, h3⟩, rfl⟩
    obtain ⟨e, he, hp, ht⟩ := (childEntries_mem _ _ _).mp hent
    exact ⟨e, he, ent.d_name, hp, by rw [ht]; exact h3, by simp⟩
  · rintro ⟨e, he, n, hp, ht, rfl⟩
    have hn := WellFormed_name fs hwf e he n (by rw [hp]; simp)
    refine ⟨{ d_name := n, d_type := e.d_type }, ⟨?_, ⟨hn.2.2.1, hn.2.2.2⟩, ht⟩, by simp⟩
    exact (childEntries_mem _ _ _).mpr ⟨e, he, hp, rfl⟩

/-- The directories that the `readdir` loop finds in an open directory of a well formed tree. -/
theorem subdirPaths_mem_iff (fs : FileSystem) (hwf : fs.WellFormed) (path q : Str) :
    q ∈ subdirPaths path ({ d_name := ['.'], d_type := DT_DIR } ::
      { d_name := ['.', '.'], d_type := DT_DIR } :: childEntries fs (tokens path)) ↔
    ∃ e ∈ fs, ∃ n, e.path = tokens path ++ [n] ∧ treatedAsDir e.d_type = true ∧
      q = path ++ '/' :: n := by
  rw [subdirPaths_opendir]
  simp only [List.mem_map, List.mem_filter, Bool.and_eq_true, decide_eq_true_eq]
  constructor
  · rintro ⟨ent, ⟨hent, -, h3⟩, rfl⟩
    obtain ⟨e, he, hp, ht⟩ := (childEntries_mem _ _ _).mp hent
    exact ⟨e, he, ent.d_name, hp, by rw [ht]; exact h3, by simp⟩
  · rintro ⟨e, he, n, hp, ht, rfl⟩
    have hn := WellFormed_name fs hwf e he n (by rw [hp]; simp)
    refine ⟨{ d_name := n, d_type := e.d_type }, ⟨?_, ⟨hn.2.2.1, hn.2.2.2⟩, ht⟩, by simp⟩
    exact (childEntries_mem _ _ _).mpr ⟨e, he, hp, rfl⟩

/-- In a well formed tree every entry that lies deeper than a place has a directory at the
first level below that place on its way. -/
theorem WellFormed_ancestor (fs : FileSystem) (hwf : fs.WellFormed) (key : List Str) (n : Str) :
    ∀ (rel : List Str) (e : Entry), e ∈ fs → rel ≠ [] → e.path = key ++ n :: rel →
      ∃ d ∈ fs, d.path = key ++ [n] ∧ d.d_type = DT_DIR := by
  intro rel
  induction rel using List.reverseRecOn with
  | nil => intro e _ h; exact absurd rfl h
  | append_singleton rel x ih =>
    intro e he _ hp
    have hdl : e.path.dropLast = key ++ n :: rel := by
      rw [hp, ← List.cons_append, ← List.append_assoc, List.dropLast_concat]
    rcases hwf.2.2 e he with h | h
    · rw [hdl] at h
      simp at h
    · rw [hdl, isDirectory_iff] at h
      obtain ⟨d, hd, hdp, hdt⟩ := h
      by_cases hr : rel = []
      · subst hr
        exact ⟨d, hd, hdp, hdt⟩
      · exact ih d hd hr hdp

theorem tokens_below (path : Str) (rel : List Str) (hne : rel ≠ [])
    (hrel : ∀ n ∈ rel, '/' ∉ n) :
    tokens (path ++ '/' :: joinSlash rel) = tokens path ++ rel := by
  rw [tokens_append, tokens_joinSlash rel hne hrel]

/-- In a well formed tree, a place that has something below it is a directory. -/
theorem WellFormed_parent (fs : FileSystem) (hwf : fs.WellFormed) (key : List Str)
    (hkey : key ≠ []) (e : Entry) (he : e ∈ fs) (rel : List Str) (hrel : rel ≠ [])
    (hp : e.path = key ++ rel) : fs.isDirectory key = true := by
  cases rel with
  | nil => exact absurd rfl hrel
  | cons n rel2 =>
    have hchild : ∃ d ∈ fs, d.path = key ++ [n] := by
      by_cases h : rel2 = []
      · subst h
        exact ⟨e, he, hp⟩
      · obtain ⟨d, hd, hdp, -⟩ := WellFormed_ancestor fs hwf key n rel2 e he h hp
        exact ⟨d, hd, hdp⟩
    obtain ⟨d, hd, hdp⟩ := hchild
    rcases hwf.2.2 d hd with h | h
    · rw [hdp, List.dropLast_concat] at h
      exact absurd h hkey
    · rw [hdp, List.dropLast_concat] at h
      exact h

/-- What `ListAllFatFiles` lists on a well formed tree: it returns true, no two of the listed
paths are the same, and the listed paths are those of the entries below the path that the
walk takes for files. -/
theorem ListAllFatFiles_spec (fs : FileSystem) (hwf : fs.WellFormed) :
    ∀ fuel path, 1 ≤ fuel → fs.depth + 2 ≤ fuel + (tokens path).length →
      ∃ L, ListAllFatFiles (opendirFS fs) fuel path [] = some (true, L) ∧
        (L.map tokens).Nodup ∧
        ∀ q, q ∈ L ↔ ∃ e ∈ fs, treatedAsFile e.d_type = true ∧
          ∃ rel, rel ≠ [] ∧ e.path = tokens path ++ rel ∧ q = path ++ '/' :: joinSlash rel := by
  intro fuel
  induction fuel with
  | zero => intro path h; omega
  | succ fuel ih =>
    intro path _ hfuel
    cases ho : opendirFS fs path with
    | none =>
      refine ⟨[], by simp [ListAllFatFiles, ho], by simp, fun q => ?_⟩
      simp only [List.not_mem_nil, false_iff]
      rintro ⟨e, he, -, rel, hrel, hp, -⟩
      have := WellFormed_parent fs hwf (tokens path) (tokens_ne_nil path) e he rel hrel hp
      rw [opendirFS_none fs path ho] at this
      exact absurd this (by simp)
    | some entries =>
      obtain ⟨hd, hent⟩ := opendirFS_some fs path entries ho
      obtain ⟨e0, he0, hp0, -⟩ := (isDirectory_iff _ _).mp hd
      have hle := fs.length_le_depth e0 he0
      rw [hp0] at hle
      -- the recursive calls
      have hsub : ∀ d ∈ subdirPaths path entries, ∃ n, d = path ++ '/' :: n ∧
          tokens d = tokens path ++ [n] ∧
          ListAllFatFiles (opendirFS fs) fuel d [] = some (true, listedBy (opendirFS fs) fuel d) ∧
          ((listedBy (opendirFS fs) fuel d).map tokens).Nodup ∧
          ∀ q, q ∈ listedBy (opendirFS fs) fuel d ↔ ∃ e ∈ fs, treatedAsFile e.d_type = true ∧
            ∃ rel, rel ≠ [] ∧ e.path = tokens d ++ rel ∧ q = d ++ '/' :: joinSlash rel := by
        intro d hd2
        rw [hent] at hd2
        obtain ⟨e, he, n, hp, -, rfl⟩ := (subdirPaths_mem_iff fs hwf path d).mp hd2
        have hn := WellFormed_name fs hwf e he n (by rw [hp]; simp)
        have htok := tokens_subpath path n hn.2.1
        obtain ⟨L, hL, hnd, hiff⟩ := ih (path ++ '/' :: n) (by omega)
          (by rw [htok, List.length_append, List.length_singleton]; omega)
        have hlb : listedBy (opendirFS fs) fuel (path ++ '/' :: n) = L := by
          simp [listedBy, hL]
        rw [hlb]
        exact ⟨n, rfl, htok, hL, hnd, hiff⟩
      have hres : ListAllFatFiles (opendirFS fs) (fuel + 1) path [] =
          some (true, subfilePaths path entries ++
            (subdirPaths path entries).flatMap (listedBy (opendirFS fs) fuel)) := by
        rw [ListAllFatFiles]
        simp only [ho, ListAllFatFiles.readLoop_collects, List.nil_append]
        exact ListAllFatFiles.forSubdirs_eq_bind _ _ _
          (fun d hd2 => by
            obtain ⟨n, -, -, h, -⟩ := hsub d hd2
            exact ⟨_, h⟩) _
      -- the names of what is listed below a subdirectory
      have hdeep : ∀ d ∈ subdirPaths path entries, ∀ q ∈ listedBy (opendirFS fs) fuel d,
          ∃ n rel, d = path ++ '/' :: n ∧ rel ≠ [] ∧ tokens q = tokens path ++ n :: rel := by
        intro d hd2 q hq
        obtain ⟨n, hdn, htok, -, -, hiff⟩ := hsub d hd2
        obtain ⟨e, he, -, rel, hrel, hp, rfl⟩ := (hiff q).mp hq
        refine ⟨n, rel, hdn, hrel, ?_⟩
        rw [tokens_below d rel hrel (fun m hm =>
          (WellFormed_name fs hwf e he m (by rw [hp]; simp [hm])).2.1), htok]
        simp
      have hshallow : ∀ q ∈ subfilePaths path entries, ∃ n, tokens q = tokens path ++ [n] := by
        intro q hq
        rw [hent] at hq
        obtain ⟨e, he, n, hp, -, rfl⟩ := (subfilePaths_mem fs hwf path q).mp hq
        exact ⟨n, tokens_subpath path n
          (WellFormed_name fs hwf e he n (by rw [hp]; simp)).2.1⟩
      refine ⟨_, hres, ?_, ?_⟩
      · rw [List.map_append, List.nodup_append]
        refine ⟨?_, ?_, ?_⟩
        · rw [hent, subfilePaths_opendir, List.map_map]
          exact children_tokens_nodup fs hwf path _
        · rw [List.map_flatMap, List.nodup_flatMap]
          refine ⟨fun d hd2 => (hsub d hd2).choose_spec.2.2.2.1, ?_⟩
          have hnd : (subdirPaths path entries).Nodup := by
            apply List.Nodup.of_map tokens
            rw [hent, subdirPaths_opendir, List.map_map]
            exact children_tokens_nodup fs hwf path _
          refine List.Pairwise.imp_of_mem ?_ hnd
          intro a b ha hb hab
          simp only [Function.onFun]
          rw [List.disjoint_left]
          intro t hta htb
          obtain ⟨qa, hqa, rfl⟩ := List.mem_map.mp hta
          obtain ⟨qb, hqb, hqq⟩ := List.mem_map.mp htb
          obtain ⟨na, ra, hda, -, h1⟩ := hdeep a ha qa hqa
          obtain ⟨nb, rb, hdb, -, h2⟩ := hdeep b hb qb hqb
          rw [h1, h2] at hqq
          have := List.append_cancel_left hqq
          simp only [List.cons.injEq] at this
          exact hab (by rw [hda, hdb, this.1])
        · rw [List.disjoint_left]
          intro t hta htb
          obtain ⟨qa, hqa, rfl⟩ := List.mem_map.mp hta
          obtain ⟨qb, hqb, hqq⟩ := List.mem_map.mp htb
          obtain ⟨d, hd2, hqd⟩ := List.mem_flatMap.mp hqb
          obtain ⟨n, h1⟩ := hshallow qa hqa
          obtain ⟨nb, rb, -, hrb, h2⟩ := hdeep d hd2 qb hqd
          rw [h1, h2] at hqq
          have := List.append_cancel_left hqq
          simp only [List.cons.injEq] at this
          exact hrb this.2
      · intro q
        rw [List.mem_append, List.mem_flatMap]
        constructor
        · rintro (hq | ⟨d, hd2, hq⟩)
          · rw [hent] at hq
            obtain ⟨e, he, n, hp, ht, rfl⟩ := (subfilePaths_mem fs hwf path q).mp hq
            exact ⟨e, he, ht, [n], by simp, hp, rfl⟩
          · obtain ⟨n, hdn, htok, -, -, hiff⟩ := hsub d hd2
            obtain ⟨e, he, ht, rel, hrel, hp, rfl⟩ := (hiff q).mp hq
            refine ⟨e, he, ht, n :: rel, by simp, ?_, ?_⟩
            · rw [hp, htok]; simp
            · rw [joinSlash_cons n rel hrel, hdn]; simp
        · rintro ⟨e, he, ht, rel, hrel, hp, rfl⟩
          cases rel with
          | nil => exact absurd rfl hrel
          | cons n rel2 =>
            by_cases hr2 : rel2 = []
            · subst hr2
              left
              rw [hent]
              exact (subfilePaths_mem fs hwf path _).mpr ⟨e, he, n, hp, ht, rfl⟩
            · right
              obtain ⟨d, hd2, hdp, hdt⟩ := WellFormed_ancestor fs hwf _ n rel2 e he hr2 hp
              have hmem : path ++ '/' :: n ∈ subdirPaths path entries := by
                rw [hent]
                exact (subdirPaths_mem_iff fs hwf path _).mpr
                  ⟨d, hd2, n, hdp, by rw [hdt]; decide, rfl⟩
              refine ⟨_, hmem, ?_⟩
              obtain ⟨n2, -, htok, -, -, hiff⟩ := hsub _ hmem
              have htok2 := tokens_subpath path n
                (WellFormed_name fs hwf d hd2 n (by rw [hdp]; simp)).2.1
              refine (hiff _).mpr ⟨e, he, ht, rel2, hr2, ?_, ?_⟩
              · rw [hp, htok2]; simp
              · rw [joinSlash_cons n rel2 hr2]; simp

/-- On a well formed tree whose entries are all regular files or directories,
`ListAllFatFiles` called with an empty `out_files` returns true and leaves in it exactly the
paths of the regular files below the path, at any depth, each of them once; this for every
bound on the depth of the recursion above the depth of the tree. -/
theorem ListAllFatFiles_regular_files (fs : FileSystem) (hwf : fs.WellFormed)
    (htypes : ∀ e ∈ fs, e.d_type = DT_REG ∨ e.d_type = DT_DIR) (path : Str) (extra : Nat) :
    ∃ L, ListAllFatFiles (opendirFS fs) (fs.depth + 2 + extra) path [] = some (true, L) ∧
      L.Nodup ∧
      ∀ q, q ∈ L ↔ ∃ e ∈ fs, e.d_type = DT_REG ∧
        ∃ rel, rel ≠ [] ∧ e.path = tokens path ++ rel ∧ q = path ++ '/' :: joinSlash rel := by
  obtain ⟨L, hL, hnd, hiff⟩ := ListAllFatFiles_spec fs hwf (fs.depth + 2 + extra) path
    (by omega) (by omega)
  refine ⟨L, hL, List.Nodup.of_map tokens hnd, fun q => ?_⟩
  rw [hiff q]
  constructor
  · rintro ⟨e, he, ht, h⟩
    refine ⟨e, he, ?_, h⟩
    rcases htypes e he with h1 | h1
    · exact h1
    · rw [h1] at ht
      exact absurd ht (by decide)
  · rintro ⟨e, he, ht, h⟩
    exact ⟨e, he, by rw [ht]; decide, h⟩

/-- The example of the specification: on the tree with the files `a/x.txt` and `a/b/y.txt`,
listing `a` gives these two paths. -/
theorem ListAllFatFiles_example :
    ListAllFatFiles (opendirFS exampleTree) (exampleTree.depth + 2) "a".toList [] =
      some (true, ["a/x.txt".toList, "a/b/y.txt".toList]) := by
  decide

/-- C3, failing input. On the well formed tree with the directory `a`, the regular file `a/f`
and the symbolic link `a/l` (type `DT_LNK`, which is not `DT_REG`), `ListAllFatFiles` on `a`
lists the link next to the file. -/
theorem ListAllFatFiles_lists_symlink :
    linkTree.WellFormed ∧
    ListAllFatFiles (opendirFS linkTree) (linkTree.depth + 2) ['a'] [] =
      some (true, [['a', '/', 'f'], ['a', '/', 'l']]) ∧
    { path := [['a'], ['l']], d_type := DT_LNK } ∈ linkTree ∧ DT_LNK ≠ DT_REG := by
  decide

theorem liesBelow_iff (key p : List Str) :
    liesBelow key p = true ↔ ∃ rel, rel ≠ [] ∧ p = key ++ rel := by
  unfold liesBelow
  rw [decide_eq_true_iff]
  constructor
  · rintro ⟨h1, h2⟩
    refine ⟨p.drop key.length, ?_, ?_⟩
    · intro h
      have := congrArg List.length h
      simp only [List.length_drop, List.length_nil] at this
      omega
    · conv_lhs => rw [← List.take_append_drop key.length p]
      rw [h2]
  · rintro ⟨rel, hrel, rfl⟩
    refine ⟨?_, by simp⟩
    have := List.length_pos.mpr hrel
    simp only [List.length_append]
    omega

theorem FileSystem.depth_filter_le (fs : FileSystem) (P : Entry → Bool) :
    FileSystem.depth (fs.filter P) ≤ fs.depth := by
  unfold FileSystem.depth
  induction fs with
  | nil => simp
  | cons x xs ih =>
    rw [List.filter_cons]
    split
    · simp only [List.map_cons, List.foldr_cons]
      exact max_le_max (le_refl _) ih
    · simp only [List.map_cons, List.foldr_cons]
      exact le_trans ih (le_max_right _ _)

/-- Taking entries that are not directories out of a well formed tree leaves it well formed. -/
theorem WellFormed_filter (fs : FileSystem) (hwf : fs.WellFormed) (P : Entry → Bool)
    (hP : ∀ e ∈ fs, e.d_type = DT_DIR → P e = true) : FileSystem.WellFormed (fs.filter P) := by
  refine ⟨((List.filter_sublist _).map _).nodup hwf.1, ?_, ?_⟩
  · intro e he
    exact hwf.2.1 e (List.mem_of_mem_filter he)
  · intro e he
    rcases hwf.2.2 e (List.mem_of_mem_filter he) with h | h
    · exact Or.inl h
    · right
      rw [isDirectory_iff] at h ⊢
      obtain ⟨d, hd, hdp, hdt⟩ := h
      exact ⟨d, List.mem_filter.mpr ⟨hd, hP d hd hdt⟩, hdp, hdt⟩

theorem WellFormed_entry_eq (fs : FileSystem) (hwf : fs.WellFormed) (e1 e2 : Entry)
    (h1 : e1 ∈ fs) (h2 : e2 ∈ fs) (hp : e1.path = e2.path) : e1 = e2 :=
  List.inj_on_of_nodup_map hwf.1 h1 h2 hp

/-- The loop over `subfiles` on the tree model: when the files are there, each at a place of
its own, all of them are removed and the loop reports success. -/
theorem DeleteFatDirectory.forSubfiles_spec (files : List Str) :
    ∀ fs : FileSystem, (files.map tokens).Nodup →
      (∀ q ∈ files, fs.isNonDirectory (tokens q) = true) →
      DeleteFatDirectory.forSubfiles removeFS files fs =
        (true, fs.filter (fun e => decide (e.path ∉ files.map tokens))) := by
  induction files with
  | nil => intro fs _ _; simp [DeleteFatDirectory.forSubfiles]
  | cons q rest ih =>
    intro fs hnd hfiles
    rw [List.map_cons, List.nodup_cons] at hnd
    have hq := hfiles q (by simp)
    rw [DeleteFatDirectory.forSubfiles]
    simp only [DeleteFatFile, removeFS, hq, if_true, decide_True, Bool.not_true,
      Bool.false_eq_true, if_false]
    rw [ih _ hnd.2]
    · rw [List.filter_filter]
      congr 1
      refine List.filter_congr (fun e _ => ?_)
      by_cases h1 : e.path = tokens q <;> by_cases h2 : e.path ∈ rest.map tokens <;>
        simp [h1, h2]
    · intro q2 hq2
      have := hfiles q2 (List.mem_cons_of_mem _ hq2)
      rw [isNonDirectory_iff] at this ⊢
      obtain ⟨e, he, hp, ht⟩ := this
      refine ⟨e, List.mem_filter.mpr ⟨he, ?_⟩, hp, ht⟩
      rw [decide_eq_true_iff, hp]
      intro h
      exact hnd.1 (by rw [← h]; exact List.mem_map_of_mem _ hq2)

/-- The loop over `subdirs`, when every recursive call takes the regular files below its
directory out of the tree and the trees on the way satisfy an invariant. -/
theorem DeleteFatDirectory.forSubdirs_spec
    (recurse : Str → FileSystem → Option (Bool × FileSystem)) (Inv : FileSystem → Prop)
    (hInv : ∀ fs d, Inv fs → Inv (fs.filter (fun e => !regularBelow (tokens d) e)))
    (ds : List Str)
    (hrec : ∀ d ∈ ds, ∀ fs, Inv fs →
      recurse d fs = some (true, fs.filter (fun e => !regularBelow (tokens d) e))) :
    ∀ fs, Inv fs → DeleteFatDirectory.forSubdirs recurse ds fs =
      some (true, fs.filter (fun e => ds.all (fun d => !regularBelow (tokens d) e))) := by
  induction ds with
  | nil => intro fs _; simp [DeleteFatDirectory.forSubdirs]
  | cons d more ih =>
    intro fs hfs
    rw [DeleteFatDirectory.forSubdirs, hrec d (by simp) fs hfs]
    simp only [Bool.not_true, Bool.false_eq_true, if_false]
    rw [ih (fun d2 hd2 => hrec d2 (List.mem_cons_of_mem _ hd2)) _ (hInv fs d hfs),
      List.filter_filter]
    simp [List.all_cons, Bool.and_comm]

theorem regularBelow_iff (key : List Str) (e : Entry) :
    regularBelow key e = true ↔
      e.d_type = DT_REG ∧ ∃ rel, rel ≠ [] ∧ e.path = key ++ rel := by
  unfold regularBelow
  rw [Bool.and_eq_true, decide_eq_true_iff, liesBelow_iff]

/-- What `DeleteFatDirectory` does on a well formed tree of regular files and directories: it
returns true and takes out of the tree the regular files below the path, and nothing else. -/
theorem DeleteFatDirectory_spec (D : Nat) :
    ∀ fuel path (fs : FileSystem), fs.WellFormed →
      (∀ e ∈ fs, e.d_type = DT_REG ∨ e.d_type = DT_DIR) → fs.depth ≤ D →
      1 ≤ fuel → D + 2 ≤ fuel + (tokens path).length →
      DeleteFatDirectory opendirFS removeFS fuel path fs =
        some (true, fs.filter (fun e => !regularBelow (tokens path) e)) := by
  intro fuel
  induction fuel with
  | zero => intro path fs _ _ _ h; omega
  | succ fuel ih =>
    intro path fs hwf hty hD _ hfuel
    rw [DeleteFatDirectory]
    cases ho : opendirFS fs path with
    | none =>
      simp only []
      congr 2
      symm
      rw [List.filter_eq_self]
      intro e he
      rw [Bool.not_eq_true', Bool.eq_false_iff, ne_eq, regularBelow_iff]
      rintro ⟨-, rel, hrel, hp⟩
      have := WellFormed_parent fs hwf (tokens path) (tokens_ne_nil path) e he rel hrel hp
      rw [opendirFS_none fs path ho] at this
      exact absurd this (by simp)
    | some entries =>
      obtain ⟨hd, hent⟩ := opendirFS_some fs path entries ho
      obtain ⟨e0, he0, hp0, -⟩ := (isDirectory_iff _ _).mp hd
      have hle := fs.length_le_depth e0 he0
      rw [hp0] at hle
      simp only [DeleteFatDirectory.readLoop_partitions, List.nil_append]
      -- the files of the directory
      have hfile : ∀ q ∈ subfilePaths path entries, ∃ e ∈ fs, ∃ n,
          e.path = tokens path ++ [n] ∧ e.d_type = DT_REG ∧ tokens q = e.path := by
        intro q hq
        rw [hent] at hq
        obtain ⟨e, he, n, hp, ht, rfl⟩ := (subfilePaths_mem fs hwf path q).mp hq
        refine ⟨e, he, n, hp, ?_, ?_⟩
        · rcases hty e he with h | h
          · exact h
          · rw [h] at ht
            exact absurd ht (by decide)
        · rw [hp]
          exact tokens_subpath path n (WellFormed_name fs hwf e he n (by rw [hp]; simp)).2.1
      have hdir : ∀ d ∈ subdirPaths path entries, ∃ n, tokens d = tokens path ++ [n] := by
        intro d hd2
        rw [hent] at hd2
        obtain ⟨e, he, n, hp, -, rfl⟩ := (subdirPaths_mem_iff fs hwf path d).mp hd2
        exact ⟨n, tokens_subpath path n (WellFormed_name fs hwf e he n (by rw [hp]; simp)).2.1⟩
      have hnd : ((subfilePaths path entries).map tokens).Nodup := by
        rw [hent, subfilePaths_opendir, List.map_map]
        exact children_tokens_nodup fs hwf path _
      rw [DeleteFatDirectory.forSubfiles_spec _ fs hnd (fun q hq => by
        obtain ⟨e, he, n, -, ht, htok⟩ := hfile q hq
        rw [isNonDirectory_iff]
        exact ⟨e, he, htok.symm, by rw [ht]; decide⟩)]
      simp only [Bool.not_true, Bool.false_eq_true, if_false]
      -- the invariant of the trees on the way
      have hInv : ∀ (fs2 : FileSystem) (d : Str),
          (fs2.WellFormed ∧ (∀ e ∈ fs2, e.d_type = DT_REG ∨ e.d_type = DT_DIR) ∧ fs2.depth ≤ D) →
          (FileSystem.WellFormed (fs2.filter (fun e => !regularBelow (tokens d) e)) ∧
            (∀ e ∈ fs2.filter (fun e => !regularBelow (tokens d) e),
              e.d_type = DT_REG ∨ e.d_type = DT_DIR) ∧
            FileSystem.depth (fs2.filter (fun e => !regularBelow (tokens d) e)) ≤ D) := by
        intro fs2 d ⟨h1, h2, h3⟩
        refine ⟨WellFormed_filter fs2 h1 _ (fun e _ ht => ?_),
          fun e he => h2 e (List.mem_of_mem_filter he),
          le_trans (FileSystem.depth_filter_le _ _) h3⟩
        rw [Bool.not_eq_true', Bool.eq_false_iff, ne_eq, regularBelow_iff]
        rintro ⟨h, -⟩
        rw [ht] at h
        exact absurd h (by decide)
      rw [DeleteFatDirectory.forSubdirs_spec _
        (fun fs2 => fs2.WellFormed ∧ (∀ e ∈ fs2, e.d_type = DT_REG ∨ e.d_type = DT_DIR) ∧
          fs2.depth ≤ D) hInv _ (fun d hd2 fs2 ⟨h1, h2, h3⟩ => by
            obtain ⟨n, htok⟩ := hdir d hd2
            exact ih d fs2 h1 h2 h3 (by omega)
              (by rw [htok, List.length_append, List.length_singleton]; omega))]
      · rw [List.filter_filter]
        congr 2
        refine List.filter_congr (fun e he => ?_)
        rw [Bool.eq_iff_iff]
        simp only [Bool.and_eq_true, List.all_eq_true, Bool.not_eq_true', decide_eq_true_iff,
          Bool.eq_false_iff, ne_eq, regularBelow_iff, List.mem_map, not_exists, not_and]
        constructor
        · rintro ⟨hA, hB⟩ hreg rel hrel hp
          cases rel with
          | nil => exact hrel rfl
          | cons n rel2 =>
            by_cases hr2 : rel2 = []
            · subst hr2
              have hq : path ++ '/' :: n ∈ subfilePaths path entries := by
                rw [hent]
                exact (subfilePaths_mem fs hwf path _).mpr
                  ⟨e, he, n, hp, by rw [hreg]; decide, rfl⟩
              apply hB _ hq
              rw [hp]
              exact tokens_subpath path n
                (WellFormed_name fs hwf e he n (by rw [hp]; simp)).2.1
            · obtain ⟨d, hd2, hdp, hdt⟩ := WellFormed_ancestor fs hwf _ n rel2 e he hr2 hp
              have hq : path ++ '/' :: n ∈ subdirPaths path entries := by
                rw [hent]
                exact (subdirPaths_mem_iff fs hwf path _).mpr
                  ⟨d, hd2, n, hdp, by rw [hdt]; decide, rfl⟩
              refine hA _ hq hreg rel2 hr2 ?_
              rw [hp, tokens_subpath path n
                (WellFormed_name fs hwf d hd2 n (by rw [hdp]; simp)).2.1]
              simp
        · intro h
          refine ⟨?_, ?_⟩
          · intro d hd2 hreg rel hrel hp
            obtain ⟨n, htok⟩ := hdir d hd2
            exact h hreg (n :: rel) (by simp) (by rw [hp, htok]; simp)
          · intro q hq htq
            obtain ⟨e2, he2, n, hp2, ht2, htok⟩ := hfile q hq
            have heq : e2 = e := WellFormed_entry_eq fs hwf e2 e he2 he (by rw [← htok, htq])
            subst heq
            exact h ht2 [n] (by simp) hp2
      · refine ⟨WellFormed_filter fs hwf _ (fun e he ht => ?_),
          fun e he => hty e (List.mem_of_mem_filter he),
          le_trans (FileSystem.depth_filter_le _ _) hD⟩
        rw [decide_eq_true_iff]
        intro hmem
        obtain ⟨q, hq, htq⟩ := List.mem_map.mp hmem
        obtain ⟨e2, he2, n, -, ht2, htok⟩ := hfile q hq
        have heq : e2 = e := WellFormed_entry_eq fs hwf e2 e he2 he (by rw [← htok, htq])
        subst heq
        rw [ht] at ht2
        exact absurd ht2 (by decide)

/-- C4. On a well formed tree whose entries are all regular files or directories, where the
removal of every file succeeds, `DeleteFatDirectory` returns true, for every bound on the depth
of the recursion above the depth of the tree; afterwards no regular file is left below the
path at any depth, every directory of the tree is still there, and the tree holds exactly the
entries from before other than the regular files below the path. -/
theorem DeleteFatDirectory_keeps_directories (fs : FileSystem) (hwf : fs.WellFormed)
    (htypes : ∀ e ∈ fs, e.d_type = DT_REG ∨ e.d_type = DT_DIR) (path : Str) :
    ∃ fs2,
      (∀ extra, DeleteFatDirectory opendirFS removeFS (fs.depth + 2 + extra) path fs =
        some (true, fs2)) ∧
      (∀ e ∈ fs2, e.d_type = DT_REG → ¬ ∃ rel, rel ≠ [] ∧ e.path = tokens path ++ rel) ∧
      (∀ e ∈ fs, e.d_type = DT_DIR → e ∈ fs2) ∧
      (∀ e, e ∈ fs2 ↔ e ∈ fs ∧
        ¬ (e.d_type = DT_REG ∧ ∃ rel, rel ≠ [] ∧ e.path = tokens path ++ rel)) := by
  have hmem : ∀ e, e ∈ fs.filter (fun e => !regularBelow (tokens path) e) ↔ e ∈ fs ∧
      ¬ (e.d_type = DT_REG ∧ ∃ rel, rel ≠ [] ∧ e.path = tokens path ++ rel) := by
    intro e
    rw [List.mem_filter, Bool.not_eq_true', Bool.eq_false_iff, ne_eq, regularBelow_iff]
  refine ⟨_, fun extra => DeleteFatDirectory_spec fs.depth (fs.depth + 2 + extra) path fs hwf
    htypes (le_refl _) (by omega) (by omega), ?_, ?_, hmem⟩
  · intro e he hreg hbelow
    exact ((hmem e).mp he).2 ⟨hreg, hbelow⟩
  · intro e he hdir
    refine (hmem e).mpr ⟨he, ?_⟩
    rintro ⟨hreg, -⟩
    rw [hdir] at hreg
    exact absurd hreg (by decide)

/-- Witness for C4: the tree of the specification, with the files `a/x.txt` and `a/b/y.txt`,
and the path `a`. -/
theorem DeleteFatDirectory_keeps_directories_witness :
    ∃ fs2,
      (∀ extra, DeleteFatDirectory opendirFS removeFS (exampleTree.depth + 2 + extra) ['a']
        exampleTree = some (true, fs2)) ∧
      (∀ e ∈ fs2, e.d_type = DT_REG → ¬ ∃ rel, rel ≠ [] ∧ e.path = tokens ['a'] ++ rel) ∧
      (∀ e ∈ exampleTree, e.d_type = DT_DIR → e ∈ fs2) ∧
      (∀ e, e ∈ fs2 ↔ e ∈ exampleTree ∧
        ¬ (e.d_type = DT_REG ∧ ∃ rel, rel ≠ [] ∧ e.path = tokens ['a'] ++ rel)) :=
  DeleteFatDirectory_keeps_directories exampleTree (by decide) (by decide) ['a']

/-- The example of the specification: deleting `a` in the tree with the files `a/x.txt` and
`a/b/y.txt` removes both files and leaves the directories `a` and `a/b`. -/
theorem DeleteFatDirectory_example :
    DeleteFatDirectory opendirFS removeFS (exampleTree.depth + 2) "a".toList exampleTree =
      some (true, [{ path := ["a".toList], d_type := DT_DIR },
        { path := ["a".toList, "b".toList], d_type := DT_DIR }]) := by
  decide

end fs
